import Mathlib

/-!
Shallow embedding of `fredli74/cmdparser` (src/cmdparser.go).

The Go package is a global-state command-line parser.  The embedding makes the
state explicit: the option registry, the leftover positional arguments `Args`
and a trace of externally observable events (callback invocations, command
handler invocations, usage/version printing) are threaded through pure
functions.  Machine integers are modelled as `Int`/`Nat` with explicit
clamping where Go's `strconv` clamps.  Side-effecting hooks (`onChange`,
`onSave`) and command handler functions are modelled by presence flags; an
invocation is recorded in the event trace exactly when the Go code would call
the non-nil function pointer.

Modelling notes (fidelity caveats, all irrelevant to the claims under study):
* `os.Args[i][0]` panics in Go on an empty token; the embedding uses
  `startsWithDash`, which is `false` for `""`.  Theorems that quantify over
  argument lists therefore carry a nonemptiness hypothesis where the
  distinction could matter.
* Go ≥ 1.13 `strconv.ParseInt` with base 0 also accepts underscore digit
  separators; these are not modelled (no claim involves them).
* `float64` options (`floatOption`) are outside the embedding: IEEE-754
  shortest-representation formatting is not shallowly embeddable.
* JSON documents are modelled structurally (`Jval`); JSON numbers are
  modelled as exact integers (exact for integral values of magnitude below
  2^53, where `float64` is lossless).  Their stringification during load
  models `fmt.Sprintf("%v", x)` of the decoded `float64`: `%v` uses `%g`
  shortest formatting, plain decimal below magnitude 10^6 and e-notation
  (`"1e+06"`) from there on.
-/

namespace Cmdparser

/-! ## strconv.ParseBool (Go standard library model) -/

inductive PErr where
  | badInput
  | outOfRange
  | corrupt
deriving DecidableEq

/-- Model of Go `strconv.ParseBool`: accepts exactly the canonical twelve
literals; returns `false` together with an error for anything else. -/
def ParseBool (s : String) : Bool × Option PErr :=
  if s = "1" ∨ s = "t" ∨ s = "T" ∨ s = "true" ∨ s = "TRUE" ∨ s = "True" then (true, none)
  else if s = "0" ∨ s = "f" ∨ s = "F" ∨ s = "false" ∨ s = "FALSE" ∨ s = "False" then
    (false, none)
  else (false, some .badInput)

/-! ## strconv.ParseInt (Go standard library model, base 0, bitSize 64) -/

/-- Go `strconv` digit value: '0'-'9', 'a'-'z', 'A'-'Z'. -/
def digitVal (ch : Char) : Option Nat :=
  if '0' ≤ ch ∧ ch ≤ '9' then some (ch.toNat - 48)
  else if 'a' ≤ ch ∧ ch ≤ 'z' then some (ch.toNat - 97 + 10)
  else if 'A' ≤ ch ∧ ch ≤ 'Z' then some (ch.toNat - 65 + 10)
  else none

def maxUint64 : Nat := 2 ^ 64 - 1

def maxInt64 : Int := 2 ^ 63 - 1

def minInt64 : Int := -(2 ^ 63)

/-- Digit-accumulation loop of Go `strconv.ParseUint` (bitSize 64).  On an
invalid digit it returns `0` with a syntax error; on overflow it returns the
clamped maximum with a range error, exactly as the Go loop does. -/
def parseUintDigits (base : Nat) : List Char → Nat → Nat × Option PErr
  | [], n => (n, none)
  | ch :: cs, n =>
    match digitVal ch with
    | none => (0, some .badInput)
    | some d =>
      if base ≤ d then (0, some .badInput)
      else if maxUint64 / base + 1 ≤ n ∨ maxUint64 < n * base + d then
        (maxUint64, some .outOfRange)
      else parseUintDigits base cs (n * base + d)

/-- Base detection of Go `strconv.ParseUint` with `base = 0`: `0b`/`0B`
binary, `0o`/`0O` octal, `0x`/`0X` hex (each only when at least one digit
could follow, i.e. length ≥ 3), otherwise a leading `0` selects octal,
otherwise decimal. -/
def ParseUint0 : List Char → Nat × Option PErr
  | [] => (0, some .badInput)
  | c0 :: rest =>
    if c0 = '0' then
      match rest with
      | c1 :: c2 :: rest2 =>
        if c1 = 'b' ∨ c1 = 'B' then parseUintDigits 2 (c2 :: rest2) 0
        else if c1 = 'o' ∨ c1 = 'O' then parseUintDigits 8 (c2 :: rest2) 0
        else if c1 = 'x' ∨ c1 = 'X' then parseUintDigits 16 (c2 :: rest2) 0
        else parseUintDigits 8 rest 0
      | _ => parseUintDigits 8 rest 0
    else parseUintDigits 10 (c0 :: rest) 0

/-- Model of Go `strconv.ParseInt(s, 0, 64)`: optional sign, base-0 magnitude
parse, then the signed-range checks.  On a syntax error the value is `0`; on
a range error it is the clamped `MaxInt64`/`MinInt64` — not `0`. -/
def ParseInt (s : String) : Int × Option PErr :=
  match s.toList with
  | [] => (0, some .badInput)
  | c :: rest =>
    let signed : Bool × List Char :=
      if c = '-' then (true, rest)
      else if c = '+' then (false, rest)
      else (false, c :: rest)
    let neg := signed.1
    let un := ParseUint0 signed.2
    if un.2 = some PErr.badInput then (0, some .badInput)
    else if ¬neg ∧ 2 ^ 63 ≤ un.1 then (maxInt64, some .outOfRange)
    else if neg ∧ 2 ^ 63 < un.1 then (minInt64, some .outOfRange)
    else (if neg then -(un.1 : Int) else (un.1 : Int), none)

/-! ## Decimal formatting (model of Go `fmt.Sprintf("%v", int64)`) -/

def decDigitChar (n : Nat) : Char := Char.ofNat (48 + n)

/-- Decimal digit characters of `n`, most significant first; fuel-driven so
that the definition reduces in the kernel (fuel `n + 1` always suffices). -/
def natDecAux : Nat → Nat → List Char
  | 0, _ => []
  | fuel + 1, n =>
    if n < 10 then [decDigitChar n]
    else natDecAux fuel (n / 10) ++ [decDigitChar (n % 10)]

def natDec (n : Nat) : String := String.mk (natDecAux (n + 1) n)

/-- Model of Go decimal formatting of an `int64` (`fmt.Sprintf("%v", i)`). -/
def intToString (i : Int) : String :=
  if i < 0 then "-" ++ natDec i.natAbs else natDec i.natAbs

/-! ## base64.StdEncoding (Go standard library model)

Bytes are modelled as `Nat` values below 256.  `b64encodeChunks` is the
standard alphabet encoder with padding; `b64decodeQuanta` mirrors Go's
quantum-by-quantum decoder: on corrupt input it returns the bytes decoded so
far together with an error (Go's `DecodeString` returns the partial output
alongside `CorruptInputError`). -/

def b64chars : List Char :=
  "ABCDEFGHIJKLMNOPQRSTUVWXYZabcdefghijklmnopqrstuvwxyz0123456789+/".toList

def b64char (n : Nat) : Char := (b64chars.getD n '?')

def b64val (ch : Char) : Option Nat := b64chars.findIdx? (· = ch)

def b64encodeChunks : List Nat → List Char
  | [] => []
  | [a] => [b64char (a / 4), b64char (a % 4 * 16), '=', '=']
  | [a, b] => [b64char (a / 4), b64char (a % 4 * 16 + b / 16), b64char (b % 16 * 4), '=']
  | a :: b :: c :: rest =>
    b64char (a / 4) :: b64char (a % 4 * 16 + b / 16) ::
      b64char (b % 16 * 4 + c / 64) :: b64char (c % 64) :: b64encodeChunks rest

/-- Model of Go `base64.StdEncoding.EncodeToString`. -/
def b64encode (bs : List Nat) : String := String.mk (b64encodeChunks bs)

def b64decodeQuanta : List Char → List Nat × Option PErr
  | [] => ([], none)
  | c1 :: c2 :: c3 :: c4 :: rest =>
    match b64val c1, b64val c2 with
    | some s1, some s2 =>
      if c3 = '=' then
        -- "xx==" quantum: one byte, must end the input
        if c4 = '=' ∧ rest = [] then ([s1 * 4 + s2 / 16], none)
        else ([s1 * 4 + s2 / 16], some .corrupt)
      else
        match b64val c3 with
        | some s3 =>
          if c4 = '=' then
            -- "xxx=" quantum: two bytes, must end the input
            if rest = [] then ([s1 * 4 + s2 / 16, s2 % 16 * 16 + s3 / 4], none)
            else ([s1 * 4 + s2 / 16, s2 % 16 * 16 + s3 / 4], some .corrupt)
          else
            match b64val c4 with
            | some s4 =>
              let tl := b64decodeQuanta rest
              ((s1 * 4 + s2 / 16) :: (s2 % 16 * 16 + s3 / 4) :: (s3 % 4 * 64 + s4) :: tl.1, tl.2)
            | none => ([s1 * 4 + s2 / 16, s2 % 16 * 16 + s3 / 4], some .corrupt)
        | none => ([s1 * 4 + s2 / 16], some .corrupt)
    | _, _ => ([], some .corrupt)
  | _ => ([], some .corrupt)

/-- Model of Go `base64.StdEncoding.DecodeString`; carriage returns and line
feeds are ignored, as in Go's decoder. -/
def b64decode (s : String) : List Nat × Option PErr :=
  b64decodeQuanta (s.toList.filter (fun c => ¬(c = '\r' ∨ c = '\n')))

/-! ## encoding/json for `[]string` (Go standard library model)

`jsonMarshalStringList` models `json.Marshal` of a non-nil `[]string`
(including Go's default HTML-safe escaping of `<`, `>`, `&`).
`jsonUnmarshalStringList` models `json.Unmarshal` into a `*[]string`:
the document must be a JSON array of strings (full replace) or `null`
(sets the slice to nil); anything else is an error that leaves the slice
unchanged.  `\uXXXX` escapes are decoded without surrogate-pair combining
(no claim involves astral-plane escapes). -/

def hexDigitChar (n : Nat) : Char :=
  if n < 10 then Char.ofNat (48 + n) else Char.ofNat (97 + n - 10)

def jsonEscapeChar (ch : Char) : List Char :=
  if ch = '"' then ['\\', '"']
  else if ch = '\\' then ['\\', '\\']
  else if ch = '\n' then ['\\', 'n']
  else if ch = '\r' then ['\\', 'r']
  else if ch = '\t' then ['\\', 't']
  else if ch.toNat < 32 ∨ ch = '<' ∨ ch = '>' ∨ ch = '&' then
    ['\\', 'u', '0', '0', hexDigitChar (ch.toNat / 16), hexDigitChar (ch.toNat % 16)]
  else if ch.toNat = 8232 ∨ ch.toNat = 8233 then
    ['\\', 'u', '2', '0', '2', hexDigitChar (ch.toNat % 16)]
  else [ch]

def jsonQuoteString (s : String) : List Char :=
  '"' :: (s.toList.flatMap jsonEscapeChar) ++ ['"']

def jsonMarshalElems : List String → List Char
  | [] => []
  | [s] => jsonQuoteString s
  | s :: rest => jsonQuoteString s ++ [','] ++ jsonMarshalElems rest

/-- Model of `json.Marshal` applied to a non-nil `[]string`. -/
def jsonMarshalStringList (l : List String) : String :=
  String.mk ('[' :: jsonMarshalElems l ++ [']'])

def isJsonWs (ch : Char) : Bool := ch = ' ' ∨ ch = '\t' ∨ ch = '\n' ∨ ch = '\r'

def skipWs : List Char → List Char
  | [] => []
  | c :: rest => if isJsonWs c then skipWs rest else c :: rest

def hexVal (ch : Char) : Option Nat :=
  if '0' ≤ ch ∧ ch ≤ '9' then some (ch.toNat - 48)
  else if 'a' ≤ ch ∧ ch ≤ 'f' then some (ch.toNat - 97 + 10)
  else if 'A' ≤ ch ∧ ch ≤ 'F' then some (ch.toNat - 65 + 10)
  else none

/-- Parse the remainder of a JSON string literal (the opening quote already
consumed); returns the decoded characters and the unconsumed input. -/
def jsonParseStringBody : List Char → Option (List Char × List Char)
  | [] => none
  | '"' :: rest => some ([], rest)
  | '\\' :: esc =>
    match esc with
    | 'u' :: h1 :: h2 :: h3 :: h4 :: rest =>
      match hexVal h1, hexVal h2, hexVal h3, hexVal h4 with
      | some v1, some v2, some v3, some v4 =>
        match jsonParseStringBody rest with
        | some (cs, rem) => some (Char.ofNat (v1 * 4096 + v2 * 256 + v3 * 16 + v4) :: cs, rem)
        | none => none
      | _, _, _, _ => none
    | e :: rest =>
      let decoded : Option Char :=
        if e = '"' then some '"'
        else if e = '\\' then some '\\'
        else if e = '/' then some '/'
        else if e = 'b' then some (Char.ofNat 8)
        else if e = 'f' then some (Char.ofNat 12)
        else if e = 'n' then some '\n'
        else if e = 'r' then some '\r'
        else if e = 't' then some '\t'
        else none
      match decoded with
      | some c =>
        match jsonParseStringBody rest with
        | some (cs, rem) => some (c :: cs, rem)
        | none => none
      | none => none
    | [] => none
  | c :: rest =>
    if c.toNat < 32 then none
    else
      match jsonParseStringBody rest with
      | some (cs, rem) => some (c :: cs, rem)
      | none => none

/-- Parse the elements of a JSON array of strings after the opening `[`;
fuel-driven loop (fuel larger than the input length always suffices). -/
def jsonParseElems : Nat → List Char → List String → Option (List String)
  | 0, _, _ => none
  | fuel + 1, input, acc =>
    match skipWs input with
    | '"' :: rest =>
      match jsonParseStringBody rest with
      | some (cs, rem) =>
        match skipWs rem with
        | ',' :: more => jsonParseElems fuel more (acc ++ [String.mk cs])
        | ']' :: more => if skipWs more = [] then some (acc ++ [String.mk cs]) else none
        | _ => none
      | none => none
    | _ => none

/-- Model of `json.Unmarshal(data, s)` for `s : *[]string`.  `none` is a
decode error (the slice is left unchanged by the caller); `some none` is a
JSON `null` (Go sets the slice to nil); `some (some l)` replaces the slice
with `l`. -/
def jsonUnmarshalStringList (s : String) : Option (Option (List String)) :=
  match skipWs s.toList with
  | 'n' :: 'u' :: 'l' :: 'l' :: rest => if skipWs rest = [] then some none else none
  | '[' :: rest =>
    match skipWs rest with
    | ']' :: more => if skipWs more = [] then some (some []) else none
    | _ => (jsonParseElems (rest.length + 1) rest []).map some
  | _ => none

/-! ## Small string helpers (kernel-computable models of Go operations) -/

/-- Go `s[0] == '-'` (for the empty string Go would panic on the index;
see the header note). -/
def startsWithDash (s : String) : Bool :=
  match s.toList with
  | [] => false
  | c :: _ => c = '-'

/-- Model of Go `strings.Split(s, "=")`: split at every `'='`. -/
def splitEqAux : List Char → List Char → List String
  | [], acc => [String.mk acc.reverse]
  | c :: rest, acc =>
    if c = '=' then String.mk acc.reverse :: splitEqAux rest []
    else splitEqAux rest (c :: acc)

/-- `strings.Split(s[1:], "=")` as used on an option token. -/
def splitTokenPair (tok : String) : List String :=
  splitEqAux (tok.toList.drop 1) []

/-! ## Option flags (src/cmdparser.go lines 20-25) -/

def Standard : Nat := 1

def Preference : Nat := 2

def Required : Nat := 4

def Hidden : Nat := 8

/-! ## The typed value cell (`optionValue` and its five non-float variants)

`floatOption` is not embedded (IEEE-754 formatting, see the header note).
`strList` and `bytes` carry `Option` to model the Go nil-slice / non-nil
empty-slice distinction, which `Reset` versus `Set` produce and which
`json.Marshal` observes (nil marshals as `null`). -/

inductive OptValue where
  | bool (b : Bool)
  | int (i : Int)
  | str (s : String)
  | strList (l : Option (List String))
  | bytes (b : Option (List Nat))
deriving DecidableEq

/-- The `String()` method of each variant (named `toText`, the spec's name
for it, because `OptValue.String` would shadow the `String` type inside the
`OptValue` namespace): `fmt.Sprintf("%v", ...)` for bool/int/string, `""`
for a nil list else `json.Marshal`, and base64 for bytes. -/
def OptValue.toText : OptValue → String
  | .bool b => if b then "true" else "false"
  | .int i => intToString i
  | .str s => s
  | .strList none => ""
  | .strList (some l) => jsonMarshalStringList l
  | .bytes b => b64encode (b.getD [])

/-- The `Reset()` method of each variant. -/
def OptValue.Reset : OptValue → OptValue
  | .bool _ => .bool false
  | .int _ => .int 0
  | .str _ => .str ""
  | .strList _ => .strList none
  | .bytes _ => .bytes none

/-- The `Set(string) error` method of each variant.  Note that every variant
assigns the parse result to the cell *before* returning the error, exactly as
the Go methods do; `strList.Set` appends one element. -/
def OptValue.Set : OptValue → String → OptValue × Option PErr
  | .bool _, s => ((OptValue.bool (ParseBool s).1), (ParseBool s).2)
  | .int _, s => ((OptValue.int (ParseInt s).1), (ParseInt s).2)
  | .str _, v => (OptValue.str v, none)
  | .strList l, v => (OptValue.strList (some (l.getD [] ++ [v])), none)
  | .bytes _, s => ((OptValue.bytes (some (b64decode s).1)), (b64decode s).2)

/-- `stringListOption.FromString` as used by `Parse`: `json.Unmarshal` of the
text into the list; the caller discards the error, so on a decode error the
current list is kept unchanged. -/
def stringListFromString (cur : Option (List String)) (v : String) : Option (List String) :=
  match jsonUnmarshalStringList v with
  | some r => r
  | none => cur

/-! ## JSON document model for the preferences file -/

/-- Decoded JSON values as Go's `json` package delivers them into
`map[string]interface{}`.  Numbers are modelled as exact integers (see the
header note). -/
inductive Jval where
  | null
  | bool (b : Bool)
  | num (n : Int)
  | str (s : String)
  | arr (l : List Jval)
  | obj

def JDoc : Type := List (String × Jval)

/-- The `Get() interface{}` method of each variant, composed with
`json.Marshal`'s encoding of the native value: nil slices marshal as `null`,
`[]byte` as a base64 string, `[]string` as an array of strings. -/
def OptValue.Get : OptValue → Jval
  | .bool b => .bool b
  | .int i => .num i
  | .str s => .str s
  | .strList none => .null
  | .strList (some l) => .arr (l.map Jval.str)
  | .bytes none => .null
  | .bytes (some bs) => .str (b64encode bs)

/-- Rendering of Go's strconv/base64 error strings (abbreviated; no claim
depends on the exact error text of a value parse failure). -/
def perrMessage : PErr → String
  | .badInput => "invalid syntax"
  | .outOfRange => "value out of range"
  | .corrupt => "illegal base64 data"

/-! ## Registries (`CmdOption`, `CmdCommand`) and observable events -/

/-- `CmdOption` (src/cmdparser.go lines 343-353).  The `onChange`/`onSave`
function-pointer fields are modelled by presence flags; a hook invocation is
recorded as an event. -/
structure CmdOption where
  Name : String
  Group : String
  Format : String
  Help : String
  Value : OptValue
  Default : String
  Flags : Nat
  onChange : Bool
  onSave : Bool
deriving DecidableEq

/-- `CmdCommand` (src/cmdparser.go lines 327-331); the handler pointer is
modelled by a presence flag. -/
structure CmdCommand where
  Command : String
  Help : String
  hasFunction : Bool
deriving DecidableEq

/-- Externally observable events of a parse run, in order: option on-change
hooks, option on-save hooks, command handler invocations, and the
usage/version printers. -/
inductive Event where
  | changed (name : String)
  | saved (name : String)
  | invoked (cmd : String)
  | usage
  | version
deriving DecidableEq

/-- `doChange` (src/cmdparser.go lines 396-400): call the hook iff attached. -/
def doChange (o : CmdOption) (tr : List Event) : List Event :=
  if o.onChange then tr ++ [Event.changed o.Name] else tr

/-- `addOption` (src/cmdparser.go lines 481-485): append the definition,
capturing `Default := value.String()` at registration time.  The Go code
performs no duplicate-name check and cannot fail. -/
def addOption (name cmd format help : String) (value : OptValue) (flags : Nat)
    (optionList : List CmdOption) : List CmdOption :=
  optionList ++ [⟨name, cmd, format, help, value, value.toText, flags, false, false⟩]

/-- `Command` (src/cmdparser.go lines 334-338): append the command. -/
def Command (cmd help : String) (hasFunction : Bool)
    (commandList : List CmdCommand) : List CmdCommand :=
  commandList ++ [⟨cmd, help, hasFunction⟩]

/-- The option-lookup loop in `Parse` (lines 144-149): first match wins. -/
def findOption : List CmdOption → String → Option CmdOption
  | [], _ => none
  | o :: rest, name => if o.Name = name then some o else findOption rest name

/-- Write back the mutated value of the first option with the given name
(the Go code mutates the found `*CmdOption` in place). -/
def updateOption : List CmdOption → String → OptValue → List CmdOption
  | [], _, _ => []
  | o :: rest, name, v =>
    if o.Name = name then { o with Value := v } :: rest else o :: updateOption rest name v

/-! ## The token scan of `Parse` (src/cmdparser.go lines 120-197) -/

structure ScanSt where
  opts : List CmdOption
  Args : List String
  trace : List Event
  stop : Bool
  doSave : Bool
  doShow : Bool
deriving DecidableEq

/-- Classification of one token by the if/else chain at the top of the scan
loop.  Go's `os.Args[i][0] == '-'` is modelled as `startsWithDash` (see the
header note on empty tokens). -/
inductive TokAct where
  | haltUsage
  | haltVersion
  | setStop
  | setSave
  | setShow
  | option
  | positional
deriving DecidableEq

def classifyTok (optionsFile : String) (stop : Bool) (tok : String) : TokAct :=
  if ¬stop ∧ (tok = "-?" ∨ tok = "-h" ∨ tok = "-H") then .haltUsage
  else if ¬stop ∧ tok = "-version" then .haltVersion
  else if ¬stop ∧ tok = "--" then .setStop
  else if ¬stop ∧ optionsFile ≠ "" ∧ tok = "-saveoptions" then .setSave
  else if ¬stop ∧ optionsFile ≠ "" ∧ tok = "-showoptions" then .setShow
  else if ¬stop ∧ startsWithDash tok then .option
  else .positional

inductive StepOut where
  | cont (st : ScanSt) (consumed : Bool)
  | fail (st : ScanSt) (msg : String)
deriving DecidableEq

/-- Apply a resolved value to an option (lines 184-193): empty text means
`Reset()`, otherwise `Set(text)`; a `Set` error aborts the parse (with the
value already overwritten, as in Go); on success `doChange()` fires. -/
def applyValue (o : CmdOption) (v : String) (st : ScanSt) : ScanSt × Option String :=
  if v = "" then
    ({ st with opts := updateOption st.opts o.Name o.Value.Reset,
               trace := doChange o st.trace }, none)
  else
    let r := o.Value.Set v
    match r.2 with
    | some e =>
      ({ st with opts := updateOption st.opts o.Name r.1 },
       some ("Invalid value set for option " ++ o.Name ++ ": \"" ++ v ++ "\" ("
             ++ perrMessage e ++ ")"))
    | none =>
      ({ st with opts := updateOption st.opts o.Name r.1,
                 trace := doChange o st.trace }, none)

def stepOfApply (r : ScanSt × Option String) (consumed : Bool) : StepOut :=
  match r.2 with
  | some m => .fail r.1 m
  | none => .cont r.1 consumed

/-- Processing of one option token (lines 141-193).  `next?` is the lookahead
token `os.Args[i+1]` when it exists; `consumed = true` models `i++`. -/
def optionStep (tok : String) (next? : Option String) (st : ScanSt) : StepOut :=
  let pair := splitTokenPair tok
  let name := pair.headD ""
  match findOption st.opts name with
  | none => .fail st ("Invalid option -" ++ name)
  | some o =>
    let nx := next?.getD ""
    let nextOk : Prop := next?.isSome ∧ ¬startsWithDash nx
    if pair.length = 1 then
      match o.Value with
      | .bool _ =>
        if nextOk then
          if (ParseBool nx).2.isSome then stepOfApply (applyValue o "true" st) false
          else stepOfApply (applyValue o nx st) true
        else stepOfApply (applyValue o "true" st) false
      | .strList cur =>
        if nextOk then stepOfApply (applyValue o nx st) true
        else
          let nv := OptValue.strList (stringListFromString cur o.Default)
          .cont { st with opts := updateOption st.opts o.Name nv } false
      | _ =>
        if nextOk then stepOfApply (applyValue o nx st) true
        else stepOfApply (applyValue o o.Default st) false
    else if pair.length = 2 then
      stepOfApply (applyValue o ((pair.getD 1 "")) st) false
    else
      .cont st false

inductive ScanOut where
  | done (st : ScanSt)
  | early (st : ScanSt)
  | fail (st : ScanSt) (msg : String)
deriving DecidableEq

def pushArg (st : ScanSt) (tok : String) : ScanSt := { st with Args := st.Args ++ [tok] }

/-- The token scan loop of `Parse`.  `early` models the `return nil` of the
help/version branches. -/
def scanArgs (optionsFile : String) : List String → ScanSt → ScanOut
  | [], st => .done st
  | [tok], st =>
    match classifyTok optionsFile st.stop tok with
    | .haltUsage => .early { st with trace := st.trace ++ [Event.usage] }
    | .haltVersion => .early { st with trace := st.trace ++ [Event.version] }
    | .setStop => scanArgs optionsFile [] { st with stop := true }
    | .setSave => scanArgs optionsFile [] { st with doSave := true }
    | .setShow => scanArgs optionsFile [] { st with doShow := true }
    | .option =>
      match optionStep tok none st with
      | .fail st' m => .fail st' m
      | .cont st' _ => scanArgs optionsFile [] st'
    | .positional => scanArgs optionsFile [] (pushArg st tok)
  | tok :: next :: rest, st =>
    match classifyTok optionsFile st.stop tok with
    | .haltUsage => .early { st with trace := st.trace ++ [Event.usage] }
    | .haltVersion => .early { st with trace := st.trace ++ [Event.version] }
    | .setStop => scanArgs optionsFile (next :: rest) { st with stop := true }
    | .setSave => scanArgs optionsFile (next :: rest) { st with doSave := true }
    | .setShow => scanArgs optionsFile (next :: rest) { st with doShow := true }
    | .option =>
      match optionStep tok (some next) st with
      | .fail st' m => .fail st' m
      | .cont st' consumed =>
        if consumed then scanArgs optionsFile rest st'
        else scanArgs optionsFile (next :: rest) st'
    | .positional => scanArgs optionsFile (next :: rest) (pushArg st tok)

/-! ## Preferences codec (src/cmdparser.go lines 254-322) -/

/-- `jsonOptions` (lines 254-269): include an option iff it carries the
Preference flag and its current text differs from its captured default;
before inclusion, fire `doSave` (the on-before-save hook) if attached.
Go serializes a map (sorted keys); the document is modelled as an
association list in registration order — only key membership and lookup
matter to the claims. -/
def jsonOptions : List CmdOption → List Event → JDoc × List Event
  | [], tr => ([], tr)
  | v :: rest, tr =>
    if 0 < Nat.land v.Flags Preference ∧ v.Value.toText ≠ v.Default then
      let tr' := if v.onSave then tr ++ [Event.saved v.Name] else tr
      let r := jsonOptions rest tr'
      ((v.Name, v.Value.Get) :: r.1, r.2)
    else jsonOptions rest tr

def lookupDoc (doc : JDoc) (name : String) : Option Jval :=
  (doc.find? (fun p => p.1 == name)).map (fun p => p.2)

/-- The shortest significant digits of an integral float64: the decimal
digits with the trailing zeros removed. -/
def stripTrailingZeros (l : List Char) : List Char :=
  (l.reverse.dropWhile (fun c => c == '0')).reverse

/-- The e-notation Go's `%g` prints for an integral float64 of magnitude
`m` (taken when the decimal exponent — digit count minus one — is at least
6): the shortest significant digits as `d.ddd`, then `e+` and the exponent
padded to at least two digits, e.g. `"1e+06"`, `"1.234567e+06"`. -/
def sciForm (m : Nat) : String :=
  let digits := natDecAux (m + 1) m
  let e := digits.length - 1
  let mant : List Char :=
    match stripTrailingZeros digits with
    | [] => ['0']
    | [d] => [d]
    | d :: rest => d :: '.' :: rest
  let expDigits := natDecAux (e + 1) e
  String.mk (mant ++ ['e', '+'] ++ (if e < 10 then '0' :: expDigits else expDigits))

/-- Model of `fmt.Sprintf("%v", x)` for the decoded `float64` of an integral
JSON number: `%v` formats a float64 with `%g` shortest precision, which
prints plain decimal while the decimal exponent is below 6 and switches to
e-notation from magnitude 10^6 upward (`float64 1000000` prints as
`"1e+06"`, which `strconv.ParseInt` then rejects). -/
def jsonNumToString (i : Int) : String :=
  if i.natAbs < 1000000 then intToString i
  else if i < 0 then "-" ++ sciForm i.natAbs
  else sciForm i.natAbs

/-- Stringification `fmt.Sprintf("%v", t)` of a decoded scalar; only
scalars reach the default branch of `loadOptions`. -/
def stringifyScalar : Jval → String
  | .bool b => if b then "true" else "false"
  | .num n => jsonNumToString n
  | .str s => s
  | _ => ""

/-- The element loop of the JSON-array case of `loadOptions`: each element is
type-asserted to `string` (a non-string element panics in Go, modelled as a
distinguished error) and applied via `Set`. -/
def setElems : List Jval → OptValue → OptValue × Option String
  | [], v => (v, none)
  | .str s :: rest, v =>
    match (OptValue.Set v s).2 with
    | some e => ((OptValue.Set v s).1, some (perrMessage e))
    | none => setElems rest (OptValue.Set v s).1
  | _ :: _, v => (v, some "panic: interface conversion")

structure LoadRes where
  opts : List CmdOption
  trace : List Event
  err : Option String
deriving DecidableEq

/-- The per-option loop of `loadOptions` (lines 298-320): null → reset,
object → skipped, array → reset then per-element `Set` with one `doChange`
after the loop, any scalar → stringify then `Set` with one `doChange`.
Errors abort the loop, leaving later options unprocessed. -/
def loadOptionsGo : List CmdOption → JDoc → List Event → LoadRes
  | [], _, tr => ⟨[], tr, none⟩
  | o :: rest, doc, tr =>
    match lookupDoc doc o.Name with
    | none =>
      let r : LoadRes := loadOptionsGo rest doc tr
      ⟨o :: r.opts, r.trace, r.err⟩
    | some .null =>
      let r : LoadRes := loadOptionsGo rest doc tr
      ⟨{ o with Value := o.Value.Reset } :: r.opts, r.trace, r.err⟩
    | some .obj =>
      let r : LoadRes := loadOptionsGo rest doc tr
      ⟨o :: r.opts, r.trace, r.err⟩
    | some (.arr elems) =>
      let s : OptValue × Option String := setElems elems o.Value.Reset
      match s.2 with
      | some e => ⟨{ o with Value := s.1 } :: rest, tr, some e⟩
      | none =>
        let r : LoadRes := loadOptionsGo rest doc (doChange o tr)
        ⟨{ o with Value := s.1 } :: r.opts, r.trace, r.err⟩
    | some v =>
      let s : OptValue × Option PErr := o.Value.Set (stringifyScalar v)
      match s.2 with
      | some e => ⟨{ o with Value := s.1 } :: rest, tr, some (perrMessage e)⟩
      | none =>
        let r : LoadRes := loadOptionsGo rest doc (doChange o tr)
        ⟨{ o with Value := s.1 } :: r.opts, r.trace, r.err⟩

/-- `loadOptions` (lines 287-322): a missing file (`fileDoc = none`) is not
an error and changes nothing; otherwise the decoded document is applied. -/
def loadOptionsFile (fileDoc : Option JDoc) (opts : List CmdOption)
    (tr : List Event) : LoadRes :=
  match fileDoc with
  | none => ⟨opts, tr, none⟩
  | some doc => loadOptionsGo opts doc tr

/-! ## Command resolution and dispatch (src/cmdparser.go lines 199-249) -/

/-- The per-command condition of the command-selection loop (line 221):
`(len(Args) > 1 && c.Command == Args[1]) || c.Command == ""`. -/
def cmdHit (args : List String) (c : CmdCommand) : Prop :=
  (1 < args.length ∧ args.getD 1 "" = c.Command) ∨ c.Command = ""

instance (args : List String) (c : CmdCommand) : Decidable (cmdHit args c) := by
  unfold cmdHit; infer_instance

/-- The command-selection loop (lines 219-227): an empty-named command is
remembered and overridden by the first command whose name equals `Args[1]`
(the loop breaks only on a non-empty match). -/
def findCommandGo : List CmdCommand → List String → Option CmdCommand → Option CmdCommand
  | [], _, acc => acc
  | c :: rest, args, acc =>
    if cmdHit args c then
      if c.Command ≠ "" then some c else findCommandGo rest args (some c)
    else findCommandGo rest args acc

def findCommand (cmds : List CmdCommand) (args : List String) : Option CmdCommand :=
  findCommandGo cmds args none

/-- The required-option loop (lines 229-233): first Required-flagged option
whose current text equals its captured default. -/
def requiredCheck (opts : List CmdOption) : Option CmdOption :=
  opts.find? (fun n => decide (0 < Nat.land n.Flags Required ∧ n.Value.toText = n.Default))

structure Config where
  Title : String
  OptionsFile : String
  commandList : List CmdCommand
deriving DecidableEq

structure PResult where
  opts : List CmdOption
  Args : List String
  trace : List Event
  err : Option String
deriving DecidableEq

/-- The post-scan half of `Parse` (lines 199-248): show/save preferences, or
resolve the command, run the required-option check, and invoke the handler
(iff non-nil). -/
def dispatch (cfg : Config) (st : ScanSt) : PResult :=
  if st.doShow then
    ⟨st.opts, st.Args, (jsonOptions st.opts st.trace).2, none⟩
  else if st.doSave then
    ⟨st.opts, st.Args, (jsonOptions st.opts st.trace).2, none⟩
  else
    match findCommand cfg.commandList st.Args with
    | some c =>
      match requiredCheck st.opts with
      | some n => ⟨st.opts, st.Args, st.trace, some ("Missing required option -" ++ n.Name)⟩
      | none =>
        ⟨st.opts, st.Args,
         (if c.hasFunction then st.trace ++ [Event.invoked c.Command] else st.trace), none⟩
    | none =>
      if st.Args.length < 2 then
        ⟨st.opts, st.Args, st.trace ++ [Event.usage], some "Missing required command"⟩
      else
        ⟨st.opts, st.Args, st.trace, some (st.Args.getD 1 "" ++ " is not a valid command")⟩

/-- `Parse` (src/cmdparser.go lines 113-250).  `osArgs` is the full `os.Args`
including the program name at index 0; `fileDoc` is the decoded preferences
file (`none` = missing file), consulted only when `OptionsFile` is set. -/
def Parse (cfg : Config) (fileDoc : Option JDoc) (osArgs : List String)
    (opts : List CmdOption) : PResult :=
  let pre : LoadRes :=
    if cfg.OptionsFile ≠ "" then loadOptionsFile fileDoc opts [] else ⟨opts, [], none⟩
  match pre.err with
  | some e => ⟨pre.opts, [], pre.trace, some e⟩
  | none =>
    match scanArgs cfg.OptionsFile osArgs ⟨pre.opts, [], pre.trace, false, false, false⟩ with
    | .early st => ⟨st.opts, st.Args, st.trace, none⟩
    | .fail st m => ⟨st.opts, st.Args, st.trace, some m⟩
    | .done st => dispatch cfg st

/-! ## General lemmas about the registry -/

theorem findOption_name_eq {opts : List CmdOption} {name : String} {o : CmdOption}
    (h : findOption opts name = some o) : o.Name = name := by
  induction opts with
  | nil => simp [findOption] at h
  | cons hd tl ih =>
    by_cases hh : hd.Name = name
    · simp [findOption, hh] at h
      rw [← h, hh]
    · simp [findOption, hh] at h
      exact ih h

theorem findOption_append (l1 l2 : List CmdOption) (name : String) :
    findOption (l1 ++ l2) name =
      match findOption l1 name with
      | some o => some o
      | none => findOption l2 name := by
  induction l1 with
  | nil => simp [findOption]
  | cons hd tl ih =>
    by_cases hh : hd.Name = name
    · simp [findOption, hh]
    · simpa [findOption, hh] using ih

/-! ## Claim C9 -/

/-- Counterexample to C9: `addOption` performs no duplicate-name check.
Registering the name "x" twice does not fail — it produces a registry with
two definitions named "x". -/
theorem addOption_duplicate_name_accepted :
    (addOption "x" "" "" "" (.str "") Standard
      (addOption "x" "" "" "" (.str "a") Standard [])).map (fun o => o.Name) = ["x", "x"] ∧
    ¬ ((addOption "x" "" "" "" (.str "") Standard
      (addOption "x" "" "" "" (.str "a") Standard [])).filter
        (fun o => o.Name == "x")).length ≤ 1 := by
  constructor
  · rfl
  · decide

/-- C9 amended: registration never fails; a duplicate name is simply appended
to the registry, and option lookup during parsing (`findOption`, first match
wins) keeps resolving to the earliest registration, so later duplicates are
unreachable through `Parse`. -/
theorem addOption_total_first_registration_wins
    (opts : List CmdOption) (name cmd format help : String) (value : OptValue) (flags : Nat)
    (halready : findOption opts name ≠ none) :
    (addOption name cmd format help value flags opts).length = opts.length + 1 ∧
    findOption (addOption name cmd format help value flags opts) name =
      findOption opts name := by
  constructor
  · simp [addOption]
  · rw [addOption, findOption_append]
    cases h : findOption opts name with
    | none => exact absurd h halready
    | some o => rfl

theorem addOption_total_first_registration_wins_witness :
    (addOption "x" "" "" "" (.str "") Standard
      (addOption "x" "" "" "" (.str "a") Standard [])).length =
      (addOption "x" "" "" "" (.str "a") Standard []).length + 1 ∧
    findOption (addOption "x" "" "" "" (.str "") Standard
      (addOption "x" "" "" "" (.str "a") Standard [])) "x" =
      findOption (addOption "x" "" "" "" (.str "a") Standard []) "x" :=
  addOption_total_first_registration_wins
    (addOption "x" "" "" "" (.str "a") Standard []) "x" "" "" "" (.str "") Standard
    (by decide)

/-! ## Claim C10 -/

/-- Counterexample to C10: `intOption.Set` with overflowing text stores the
clamped `MaxInt64` that `strconv.ParseInt` returns alongside the range error —
not the parse function's zero result. -/
theorem set_int_range_error_not_zero :
    OptValue.Set (.int 5) "99999999999999999999" =
      (.int 9223372036854775807, some .outOfRange) ∧
    (9223372036854775807 : Int) ≠ 0 := by
  constructor
  · decide
  · decide

/-- C10 amended: on a failing parse, `Set` still overwrites the stored value —
with whatever value the parse function returned alongside the error
(`false` for booleans, the clamped extreme or zero for integers, the
partially decoded bytes for base64) — independently of the previous value;
the previous value is never preserved. -/
theorem set_failure_overwrites_with_parse_result :
    (∀ (prev : Bool) (s : String), (ParseBool s).2.isSome →
      OptValue.Set (.bool prev) s = (.bool false, (ParseBool s).2)) ∧
    (∀ (prev : Int) (s : String), (ParseInt s).2.isSome →
      OptValue.Set (.int prev) s = (.int (ParseInt s).1, (ParseInt s).2)) ∧
    (∀ (prev : Option (List Nat)) (s : String), (b64decode s).2.isSome →
      OptValue.Set (.bytes prev) s = (.bytes (some (b64decode s).1), (b64decode s).2)) := by
  refine ⟨fun prev s h => ?_, fun prev s _ => rfl, fun prev s _ => rfl⟩
  have hv : (ParseBool s).1 = false := by
    by_cases h1 : s = "1" ∨ s = "t" ∨ s = "T" ∨ s = "true" ∨ s = "TRUE" ∨ s = "True"
    · simp [ParseBool, h1] at h
    · by_cases h2 : s = "0" ∨ s = "f" ∨ s = "F" ∨ s = "false" ∨ s = "FALSE" ∨ s = "False"
      · simp [ParseBool, h1, h2]
      · simp [ParseBool, h1, h2]
  simp only [OptValue.Set, hv]

theorem set_failure_overwrites_with_parse_result_witness :
    OptValue.Set (.bool true) "copy" = (.bool false, (ParseBool "copy").2) ∧
    OptValue.Set (.int 5) "99999999999999999998" =
      (.int (ParseInt "99999999999999999998").1, (ParseInt "99999999999999999998").2) ∧
    OptValue.Set (.bytes (some [1])) "@@@@" =
      (.bytes (some (b64decode "@@@@").1), (b64decode "@@@@").2) :=
  ⟨set_failure_overwrites_with_parse_result.1 true "copy" (by decide),
   set_failure_overwrites_with_parse_result.2.1 5 "99999999999999999998" (by decide),
   set_failure_overwrites_with_parse_result.2.2 (some [1]) "@@@@" (by decide)⟩

/-! ## Claim C8 -/

theorem scanArgs_stopped (optionsFile : String) (toks : List String) :
    ∀ st : ScanSt, st.stop = true →
      scanArgs optionsFile toks st = .done { st with Args := st.Args ++ toks } := by
  induction toks with
  | nil => intro st h; simp [scanArgs]
  | cons tok rest ih =>
    intro st h
    have hcl : classifyTok optionsFile st.stop tok = .positional := by
      simp [classifyTok, h]
    cases rest with
    | nil =>
      simp only [scanArgs, hcl]
      simp [pushArg]
    | cons next r =>
      have hrec := ih (pushArg st tok) (by simpa [pushArg] using h)
      simp only [scanArgs, hcl]
      rw [hrec]
      simp [pushArg]

/-- C8: once a bare `--` is scanned, literal mode holds for the rest of the
argument list: every later token is appended verbatim to the positional
arguments; the registry, the event trace and the parse outcome are untouched,
so no later token is ever looked up as an option, sentinel or help alias. -/
theorem literal_mode_appends_verbatim (optionsFile : String) (post : List String)
    (st : ScanSt) (hstop : st.stop = false) :
    scanArgs optionsFile ("--" :: post) st =
      .done { st with stop := true, Args := st.Args ++ post } ∧
    (∀ (toks : List String) (st' : ScanSt), st'.stop = true →
      scanArgs optionsFile toks st' = .done { st' with Args := st'.Args ++ toks }) := by
  constructor
  · have hcl : classifyTok optionsFile st.stop "--" = .setStop := by
      simp [classifyTok, hstop]
    cases post with
    | nil =>
      simp only [scanArgs, hcl]
      simp [scanArgs]
    | cons next r =>
      have hrec := scanArgs_stopped optionsFile (next :: r) { st with stop := true } rfl
      simp only [scanArgs, hcl]
      rw [hrec]
  · exact fun toks st' h => scanArgs_stopped optionsFile toks st' h

theorem literal_mode_appends_verbatim_witness :
    scanArgs "" ["--", "-b"] ⟨[], ["prog"], [], false, false, false⟩ =
      .done ⟨[], ["prog", "-b"], [], true, false, false⟩ ∧
    scanArgs "" ["-x", "-h", "--"] ⟨[], [], [], true, false, false⟩ =
      .done ⟨[], ["-x", "-h", "--"], [], true, false, false⟩ :=
  ⟨(literal_mode_appends_verbatim "" ["-b"] ⟨[], ["prog"], [], false, false, false⟩ rfl).1,
   (literal_mode_appends_verbatim "" [] ⟨[], [], [], false, false, false⟩ rfl).2
     ["-x", "-h", "--"] ⟨[], [], [], true, false, false⟩ rfl⟩

/-! ## Dispatch-level helper lemmas (shared by the claims about `Parse`) -/

/-- When the preferences file is not configured and the scan completes, the
result of `Parse` is the post-scan dispatch. -/
theorem Parse_done_dispatch (cfg : Config) (osArgs : List String)
    (opts : List CmdOption) (st : ScanSt) (hof : cfg.OptionsFile = "")
    (hscan : scanArgs cfg.OptionsFile osArgs ⟨opts, [], [], false, false, false⟩ = .done st) :
    Parse cfg none osArgs opts = dispatch cfg st := by
  rw [hof] at hscan
  simp [Parse, hof, hscan]

theorem findCommandGo_no_hit (cmds : List CmdCommand) (args : List String)
    (h : ∀ c ∈ cmds, ¬ cmdHit args c) :
    ∀ acc, findCommandGo cmds args acc = acc := by
  induction cmds with
  | nil => intro acc; rfl
  | cons e tl ih =>
    intro acc
    have he := h e (List.mem_cons_self e tl)
    rw [findCommandGo, if_neg he]
    exact ih (fun c hc => h c (List.mem_cons_of_mem e hc)) acc

theorem findCommandGo_named (cmds : List CmdCommand) (args : List String) (c : CmdCommand)
    (hmem : c ∈ cmds) (hname : c.Command = args.getD 1 "") (hnemp : c.Command ≠ "")
    (hlen : 1 < args.length)
    (huniq : ∀ c' ∈ cmds, c'.Command = c.Command → c' = c) :
    ∀ acc, findCommandGo cmds args acc = some c := by
  induction cmds with
  | nil => cases hmem
  | cons e tl ih =>
    intro acc
    by_cases hhit : cmdHit args e
    · rw [findCommandGo, if_pos hhit]
      by_cases hee : e.Command = ""
      · rw [if_neg (by simp [hee])]
        have hctl : c ∈ tl := by
          cases List.mem_cons.mp hmem with
          | inl hh => exact absurd (hh ▸ hee) hnemp
          | inr hh => exact hh
        exact ih hctl (fun c' hc' => huniq c' (List.mem_cons_of_mem e hc')) (some e)
      · rw [if_pos hee]
        have : e.Command = c.Command := by
          rcases hhit with ⟨_, hh⟩ | hh
          · rw [← hh, hname]
          · exact absurd hh hee
        rw [huniq e (List.mem_cons_self e tl) this]
    · rw [findCommandGo, if_neg hhit]
      have hctl : c ∈ tl := by
        cases List.mem_cons.mp hmem with
        | inl hh => exact absurd (hh ▸ Or.inl ⟨hlen, hname.symm⟩) hhit
        | inr hh => exact hh
      exact ih hctl (fun c' hc' => huniq c' (List.mem_cons_of_mem e hc')) acc

theorem findCommandGo_default_keep (cmds : List CmdCommand) (args : List String)
    (d : CmdCommand)
    (hno : ∀ c ∈ cmds, c.Command ≠ "" → ¬ cmdHit args c)
    (hone : ∀ c ∈ cmds, c.Command = "" → c = d) :
    findCommandGo cmds args (some d) = some d := by
  induction cmds with
  | nil => rfl
  | cons e tl ih =>
    by_cases hee : e.Command = ""
    · rw [findCommandGo, if_pos (show cmdHit args e from Or.inr hee),
        if_neg (by simp [hee]), hone e (List.mem_cons_self e tl) hee]
      exact ih (fun c hc => hno c (List.mem_cons_of_mem e hc))
        (fun c hc => hone c (List.mem_cons_of_mem e hc))
    · rw [findCommandGo, if_neg (hno e (List.mem_cons_self e tl) hee)]
      exact ih (fun c hc => hno c (List.mem_cons_of_mem e hc))
        (fun c hc => hone c (List.mem_cons_of_mem e hc))

theorem findCommandGo_default (cmds : List CmdCommand) (args : List String)
    (d : CmdCommand) (hmem : d ∈ cmds) (hd : d.Command = "")
    (hno : ∀ c ∈ cmds, c.Command ≠ "" → ¬ cmdHit args c)
    (hone : ∀ c ∈ cmds, c.Command = "" → c = d) :
    ∀ acc, findCommandGo cmds args acc = some d := by
  induction cmds with
  | nil => cases hmem
  | cons e tl ih =>
    intro acc
    by_cases hee : e.Command = ""
    · rw [findCommandGo, if_pos (show cmdHit args e from Or.inr hee),
        if_neg (by simp [hee]), hone e (List.mem_cons_self e tl) hee]
      exact findCommandGo_default_keep tl args d
        (fun c hc => hno c (List.mem_cons_of_mem e hc))
        (fun c hc => hone c (List.mem_cons_of_mem e hc))
    · rw [findCommandGo, if_neg (hno e (List.mem_cons_self e tl) hee)]
      have hdtl : d ∈ tl := by
        cases List.mem_cons.mp hmem with
        | inl hh => exact absurd (hh ▸ hd : e.Command = "") hee
        | inr hh => exact hh
      exact ih hdtl (fun c hc => hno c (List.mem_cons_of_mem e hc))
        (fun c hc => hone c (List.mem_cons_of_mem e hc)) acc

def requiredAtDefault (o : CmdOption) : Prop :=
  0 < Nat.land o.Flags Required ∧ o.Value.toText = o.Default

instance (o : CmdOption) : Decidable (requiredAtDefault o) := by
  unfold requiredAtDefault; infer_instance

/-! ## Claim C6 -/

/-- C6: after a completed token scan with no show/save request, when a
command resolves, `Parse` fails with `Missing required option -name` (naming
the first such option) iff some Required-flagged option still has its current
text equal to its captured default; in the failure case nothing beyond the
scan is observable (no handler invocation event), and when no such option
exists the parse succeeds. -/
theorem missing_required_option_iff
    (cfg : Config) (osArgs : List String) (opts : List CmdOption) (st : ScanSt)
    (c : CmdCommand)
    (hof : cfg.OptionsFile = "")
    (hscan : scanArgs cfg.OptionsFile osArgs ⟨opts, [], [], false, false, false⟩ = .done st)
    (hsave : st.doSave = false) (hshow : st.doShow = false)
    (hcmd : findCommand cfg.commandList st.Args = some c) :
    ((∃ o ∈ st.opts, requiredAtDefault o) →
      ∃ o ∈ st.opts, requiredAtDefault o ∧
        (Parse cfg none osArgs opts).err = some ("Missing required option -" ++ o.Name) ∧
        (Parse cfg none osArgs opts).trace = st.trace) ∧
    ((∀ o ∈ st.opts, ¬ requiredAtDefault o) →
      (Parse cfg none osArgs opts).err = none) := by
  rw [Parse_done_dispatch cfg osArgs opts st hof hscan]
  constructor
  · rintro ⟨o, ho, hro⟩
    have hsome : (requiredCheck st.opts).isSome = true := by
      rw [requiredCheck, List.find?_isSome]
      exact ⟨o, ho, by simpa [requiredAtDefault] using hro⟩
    rcases Option.isSome_iff_exists.mp hsome with ⟨n, hn⟩
    refine ⟨n, List.mem_of_find?_eq_some hn, ?_, ?_, ?_⟩
    · simpa [requiredAtDefault] using List.find?_some hn
    · simp [dispatch, hshow, hsave, hcmd, requiredCheck] at hn ⊢
      simp [hn]
    · simp [dispatch, hshow, hsave, hcmd, requiredCheck] at hn ⊢
      simp [hn]
  · intro hnone
    have hrc : requiredCheck st.opts = none := by
      rw [requiredCheck, List.find?_eq_none]
      intro x hx
      simpa [requiredAtDefault] using hnone x hx
    by_cases hf : c.hasFunction
    · simp [dispatch, hshow, hsave, hcmd, hrc, hf]
    · simp [dispatch, hshow, hsave, hcmd, hrc, hf]

theorem missing_required_option_iff_witness :
    ∃ o ∈ ([⟨"user", "", "", "", .str "", "", Standard + Required, false, false⟩] :
        List CmdOption), requiredAtDefault o ∧
      (Parse ⟨"", "", [⟨"", "", true⟩]⟩ none ["prog"]
        [⟨"user", "", "", "", .str "", "", Standard + Required, false, false⟩]).err =
        some ("Missing required option -" ++ o.Name) ∧
      (Parse ⟨"", "", [⟨"", "", true⟩]⟩ none ["prog"]
        [⟨"user", "", "", "", .str "", "", Standard + Required, false, false⟩]).trace = [] :=
  (missing_required_option_iff ⟨"", "", [⟨"", "", true⟩]⟩ ["prog"]
      [⟨"user", "", "", "", .str "", "", Standard + Required, false, false⟩]
      ⟨[⟨"user", "", "", "", .str "", "", Standard + Required, false, false⟩],
        ["prog"], [], false, false, false⟩
      ⟨"", "", true⟩ rfl (by decide) rfl rfl (by decide)).1
    ⟨⟨"user", "", "", "", .str "", "", Standard + Required, false, false⟩,
      by decide, by decide⟩

/-! ## Claim C7 -/

/-- C7: command resolution after a completed scan with no show/save request
and no missing required option.  If the second positional element exists and
equals the name of a registered non-empty command, that command's handler is
invoked (exactly one invocation event is appended); otherwise the registered
empty-named default command's handler is invoked; when neither resolves,
`Parse` fails with `Missing required command` (rendering usage first, in the
fewer-than-two-positionals case) or with `<token> is not a valid command`
(when a second positional exists but matches no registered command). -/
theorem command_resolution
    (cfg : Config) (osArgs : List String) (opts : List CmdOption) (st : ScanSt)
    (hof : cfg.OptionsFile = "")
    (hscan : scanArgs cfg.OptionsFile osArgs ⟨opts, [], [], false, false, false⟩ = .done st)
    (hsave : st.doSave = false) (hshow : st.doShow = false)
    (hreq : requiredCheck st.opts = none) :
    (∀ c ∈ cfg.commandList, c.Command = st.Args.getD 1 "" → c.Command ≠ "" →
      1 < st.Args.length → c.hasFunction = true →
      (∀ c' ∈ cfg.commandList, c'.Command = c.Command → c' = c) →
      Parse cfg none osArgs opts =
        ⟨st.opts, st.Args, st.trace ++ [Event.invoked c.Command], none⟩ ∧
      (st.trace ++ [Event.invoked c.Command]).count (Event.invoked c.Command) =
        st.trace.count (Event.invoked c.Command) + 1) ∧
    (∀ d ∈ cfg.commandList, d.Command = "" → d.hasFunction = true →
      (∀ c ∈ cfg.commandList, c.Command ≠ "" → ¬ cmdHit st.Args c) →
      (∀ c ∈ cfg.commandList, c.Command = "" → c = d) →
      Parse cfg none osArgs opts =
        ⟨st.opts, st.Args, st.trace ++ [Event.invoked ""], none⟩) ∧
    ((∀ c ∈ cfg.commandList, ¬ cmdHit st.Args c) →
      (st.Args.length < 2 →
        Parse cfg none osArgs opts =
          ⟨st.opts, st.Args, st.trace ++ [Event.usage], some "Missing required command"⟩) ∧
      (1 < st.Args.length →
        Parse cfg none osArgs opts =
          ⟨st.opts, st.Args, st.trace,
            some (st.Args.getD 1 "" ++ " is not a valid command")⟩)) := by
  rw [Parse_done_dispatch cfg osArgs opts st hof hscan]
  refine ⟨fun c hmem hname hnemp hlen hfun huniq => ?_,
    fun d hmem hd hfun hno hone => ?_, fun hnohit => ?_⟩
  · have hfc : findCommand cfg.commandList st.Args = some c :=
      findCommandGo_named cfg.commandList st.Args c hmem hname hnemp hlen huniq none
    constructor
    · simp [dispatch, hshow, hsave, hfc, hreq, hfun]
    · simp [List.count_append]
  · have hfc : findCommand cfg.commandList st.Args = some d :=
      findCommandGo_default cfg.commandList st.Args d hmem hd hno hone none
    rw [← hd]
    simp [dispatch, hshow, hsave, hfc, hreq, hfun]
  · have hfc : findCommand cfg.commandList st.Args = none :=
      findCommandGo_no_hit cfg.commandList st.Args hnohit none
    constructor
    · intro hlt
      simp [dispatch, hshow, hsave, hfc, hlt]
    · intro hgt
      have : ¬ st.Args.length < 2 := by omega
      simp [dispatch, hshow, hsave, hfc, this]

theorem command_resolution_witness :
    Parse ⟨"", "", [⟨"", "", true⟩, ⟨"copy", "", true⟩]⟩ none ["prog", "copy"] [] =
      ⟨[], ["prog", "copy"], [Event.invoked "copy"], none⟩ ∧
    Parse ⟨"", "", [⟨"", "", true⟩]⟩ none ["prog"] [] =
      ⟨[], ["prog"], [Event.invoked ""], none⟩ ∧
    Parse ⟨"", "", [⟨"copy", "", true⟩]⟩ none ["prog", "move"] [] =
      ⟨[], ["prog", "move"], [], some "move is not a valid command"⟩ := by
  refine ⟨?_, ?_, ?_⟩
  · exact ((command_resolution ⟨"", "", [⟨"", "", true⟩, ⟨"copy", "", true⟩]⟩
      ["prog", "copy"] [] ⟨[], ["prog", "copy"], [], false, false, false⟩
      rfl (by decide) rfl rfl (by decide)).1 ⟨"copy", "", true⟩
      (by decide) (by decide) (by decide) (by decide) rfl (by decide)).1
  · exact (command_resolution ⟨"", "", [⟨"", "", true⟩]⟩
      ["prog"] [] ⟨[], ["prog"], [], false, false, false⟩
      rfl (by decide) rfl rfl (by decide)).2.1 ⟨"", "", true⟩
      (by decide) rfl rfl (by decide) (by decide)
  · exact ((command_resolution ⟨"", "", [⟨"copy", "", true⟩]⟩
      ["prog", "move"] [] ⟨[], ["prog", "move"], [], false, false, false⟩
      rfl (by decide) rfl rfl (by decide)).2.2 (by decide)).2 (by decide)

/-! ## Round-trip lemmas for the decimal and base64 codecs
(used by claims about the text format and the preferences round-trip) -/


theorem maxUint64_eq : maxUint64 = 18446744073709551615 := by norm_num [maxUint64]

theorem parseUintDigits_append (base : Nat) (xs ys : List Char) :
    ∀ a, (parseUintDigits base xs a).2 = none →
      parseUintDigits base (xs ++ ys) a =
        parseUintDigits base ys (parseUintDigits base xs a).1 := by
  induction xs with
  | nil => intro a _; simp [parseUintDigits]
  | cons ch cs ih =>
    intro a hok
    cases hd : digitVal ch with
    | none =>
      rw [parseUintDigits, hd] at hok
      simp at hok
    | some d =>
      simp only [parseUintDigits, hd] at hok ⊢
      by_cases h1 : base ≤ d
      · rw [if_pos h1] at hok; simp at hok
      · simp only [if_neg h1] at hok ⊢
        by_cases h2 : maxUint64 / base + 1 ≤ a ∨ maxUint64 < a * base + d
        · rw [if_pos h2] at hok; simp at hok
        · simp only [if_neg h2] at hok ⊢
          exact ih (a * base + d) hok

theorem digitVal_decDigitChar (d : Nat) (h : d < 10) : digitVal (decDigitChar d) = some d := by
  have hfin : ∀ x : Fin 10, digitVal (decDigitChar x.val) = some x.val := by decide
  exact hfin ⟨d, h⟩

theorem decDigitChar_ne_sign (d : Nat) (h : d < 10) :
    decDigitChar d ≠ '-' ∧ decDigitChar d ≠ '+' := by
  have hfin : ∀ x : Fin 10, decDigitChar x.val ≠ '-' ∧ decDigitChar x.val ≠ '+' := by decide
  exact hfin ⟨d, h⟩

theorem decDigitChar_ne_zero (d : Nat) (h : d < 10) (h1 : 1 ≤ d) : decDigitChar d ≠ '0' := by
  have hfin : ∀ x : Fin 10, 1 ≤ x.val → decDigitChar x.val ≠ '0' := by decide
  exact hfin ⟨d, h⟩ h1

theorem natDecAux_spec : ∀ fuel n, n < 10 ^ fuel →
    ∀ a, a * 10 ^ (natDecAux fuel n).length + n ≤ maxUint64 →
      parseUintDigits 10 (natDecAux fuel n) a =
        (a * 10 ^ (natDecAux fuel n).length + n, none) := by
  intro fuel
  induction fuel with
  | zero =>
    intro n hn a ha
    interval_cases n
    simp [natDecAux, parseUintDigits]
  | succ fuel ih =>
    intro n hn a ha
    by_cases hsmall : n < 10
    · rw [natDecAux, if_pos hsmall] at ha ⊢
      have hlen : ([decDigitChar n] : List Char).length = 1 := rfl
      rw [hlen, pow_one] at ha ⊢
      rw [maxUint64_eq] at ha
      rw [parseUintDigits, digitVal_decDigitChar n hsmall]
      simp only [if_neg (by omega : ¬ 10 ≤ n),
        if_neg (by rw [maxUint64_eq]; omega :
          ¬ (maxUint64 / 10 + 1 ≤ a ∨ maxUint64 < a * 10 + n)),
        parseUintDigits]
    · rw [natDecAux, if_neg hsmall] at ha ⊢
      have hdiv : n / 10 < 10 ^ fuel := by
        rw [pow_succ] at hn
        omega
      have hlen : (natDecAux fuel (n / 10) ++ [decDigitChar (n % 10)]).length =
          (natDecAux fuel (n / 10)).length + 1 := by simp
      rw [hlen] at ha ⊢
      rw [pow_succ] at ha ⊢
      have hmul : a * (10 ^ (natDecAux fuel (n / 10)).length * 10) =
          a * 10 ^ (natDecAux fuel (n / 10)).length * 10 := by ring
      rw [hmul] at ha ⊢
      rw [maxUint64_eq] at ha
      have hbound : a * 10 ^ (natDecAux fuel (n / 10)).length + n / 10 ≤ maxUint64 := by
        rw [maxUint64_eq]
        omega
      have hfirst := ih (n / 10) hdiv a hbound
      rw [parseUintDigits_append 10 _ _ a (by rw [hfirst]), hfirst]
      rw [parseUintDigits, digitVal_decDigitChar (n % 10) (by omega)]
      simp only [if_neg (by omega : ¬ 10 ≤ n % 10),
        if_neg (by rw [maxUint64_eq]; omega :
          ¬ (maxUint64 / 10 + 1 ≤ a * 10 ^ (natDecAux fuel (n / 10)).length + n / 10 ∨
             maxUint64 < (a * 10 ^ (natDecAux fuel (n / 10)).length + n / 10) * 10 + n % 10)),
        parseUintDigits]
      simp only [Prod.mk.injEq]
      exact ⟨by omega, trivial⟩

theorem natDecAux_head : ∀ fuel n, 1 ≤ n → n < 10 ^ fuel →
    ∃ d cs, natDecAux fuel n = decDigitChar d :: cs ∧ 1 ≤ d ∧ d ≤ 9 := by
  intro fuel
  induction fuel with
  | zero => intro n h1 h2; simp at h2; omega
  | succ fuel ih =>
    intro n h1 h2
    by_cases hsmall : n < 10
    · exact ⟨n, [], by rw [natDecAux, if_pos hsmall], h1, by omega⟩
    · have hdiv : n / 10 < 10 ^ fuel := by
        rw [pow_succ] at h2
        omega
      rcases ih (n / 10) (by omega) hdiv with ⟨d, cs, heq, hd1, hd9⟩
      refine ⟨d, cs ++ [decDigitChar (n % 10)], ?_, hd1, hd9⟩
      rw [natDecAux, if_neg hsmall, heq]
      rfl

theorem ParseUint0_cons_ne_zero (c0 : Char) (rest : List Char) (h : c0 ≠ '0') :
    ParseUint0 (c0 :: rest) = parseUintDigits 10 (c0 :: rest) 0 := by
  match rest with
  | [] => simp [ParseUint0, h]
  | [c1] => simp [ParseUint0, h]
  | c1 :: c2 :: r => simp [ParseUint0, h]

theorem ParseUint0_natDecAux (n : Nat) (h : n ≤ maxUint64) :
    ParseUint0 (natDecAux (n + 1) n) = (n, none) := by
  rcases Nat.eq_zero_or_pos n with h0 | h1
  · subst h0; decide
  · have hn : n < 10 ^ (n + 1) :=
      lt_of_lt_of_le (Nat.lt_pow_self (by norm_num) n)
        (Nat.pow_le_pow_right (by norm_num) (by omega))
    rcases natDecAux_head (n + 1) n h1 hn with ⟨d, cs, heq, hd1, hd9⟩
    have hspec := natDecAux_spec (n + 1) n hn 0 (by simpa using h)
    rw [heq] at hspec ⊢
    rw [ParseUint0_cons_ne_zero _ _ (decDigitChar_ne_zero d (by omega) hd1)]
    simpa using hspec

theorem ParseInt_pos_shape (c0 : Char) (rest : List Char)
    (h1 : ¬ c0 = '-') (h2 : ¬ c0 = '+') (n : Nat) (hn : n < 2 ^ 63)
    (hp : ParseUint0 (c0 :: rest) = (n, none)) :
    ParseInt (String.mk (c0 :: rest)) = ((n : Int), none) := by
  have hl : (String.mk (c0 :: rest)).toList = c0 :: rest := rfl
  have hn' : n < 9223372036854775808 := by
    have hpow : (2 : Nat) ^ 63 = 9223372036854775808 := by norm_num
    omega
  simp [ParseInt, hl, h1, h2, hp, hn']

theorem ParseInt_neg_shape (rest : List Char) (n : Nat) (hn : n ≤ 2 ^ 63)
    (hp : ParseUint0 rest = (n, none)) :
    ParseInt (String.mk ('-' :: rest)) = (-(n : Int), none) := by
  have hl : (String.mk ('-' :: rest)).toList = '-' :: rest := rfl
  have hn' : n ≤ 9223372036854775808 := by
    have hpow : (2 : Nat) ^ 63 = 9223372036854775808 := by norm_num
    omega
  simp [ParseInt, hl, hp, hn']

theorem ParseInt_intToString (i : Int) (h1 : minInt64 ≤ i) (h2 : i ≤ maxInt64) :
    ParseInt (intToString i) = (i, none) := by
  have habs : i.natAbs ≤ maxUint64 := by
    rw [maxUint64_eq]
    simp only [minInt64, maxInt64] at h1 h2
    omega
  have hup := ParseUint0_natDecAux i.natAbs habs
  by_cases hneg : i < 0
  · have hshape : intToString i = String.mk ('-' :: natDecAux (i.natAbs + 1) i.natAbs) := by
      rw [intToString, if_pos hneg]
      rfl
    rw [hshape, ParseInt_neg_shape _ i.natAbs
      (by simp only [minInt64] at h1; omega) hup]
    simp only [Prod.mk.injEq]
    exact ⟨by omega, trivial⟩
  · have hshape : intToString i = String.mk (natDecAux (i.natAbs + 1) i.natAbs) := by
      rw [intToString, if_neg hneg]
      rfl
    rcases Nat.eq_zero_or_pos i.natAbs with h0 | hpos
    · have hi0 : i = 0 := by omega
      subst hi0
      decide
    · have hn : i.natAbs < 10 ^ (i.natAbs + 1) :=
        lt_of_lt_of_le (Nat.lt_pow_self (by norm_num) i.natAbs)
          (Nat.pow_le_pow_right (by norm_num) (by omega))
      rcases natDecAux_head (i.natAbs + 1) i.natAbs hpos hn with ⟨d, cs, heq, hd1, hd9⟩
      rw [heq] at hup
      rw [hshape, heq, ParseInt_pos_shape (decDigitChar d) cs
        ((decDigitChar_ne_sign d (by omega)).1) ((decDigitChar_ne_sign d (by omega)).2)
        i.natAbs (by simp only [maxInt64] at h2; omega) hup]
      simp only [Prod.mk.injEq]
      exact ⟨by omega, trivial⟩

theorem b64val_b64char (n : Nat) (h : n < 64) : b64val (b64char n) = some n := by
  have hfin : ∀ x : Fin 64, b64val (b64char x.val) = some x.val := by decide
  exact hfin ⟨n, h⟩

theorem b64char_ne_pad (n : Nat) (h : n < 64) : b64char n ≠ '=' := by
  have hfin : ∀ x : Fin 64, b64char x.val ≠ '=' := by decide
  exact hfin ⟨n, h⟩

theorem b64char_ne_crlf (n : Nat) (h : n < 64) :
    ¬(b64char n = Char.ofNat 13 ∨ b64char n = Char.ofNat 10) := by
  have hfin : ∀ x : Fin 64,
      ¬(b64char x.val = Char.ofNat 13 ∨ b64char x.val = Char.ofNat 10) := by decide
  exact hfin ⟨n, h⟩

theorem mem_b64encodeChunks : ∀ (l : List Nat), (∀ x ∈ l, x < 256) →
    ∀ ch ∈ b64encodeChunks l, ch = '=' ∨ ∃ k, k < 64 ∧ ch = b64char k
  | [], _, ch, hch => by simp [b64encodeChunks] at hch
  | [a], h, ch, hch => by
    have ha : a < 256 := h a (by simp)
    rw [b64encodeChunks] at hch
    simp only [List.mem_cons, List.mem_singleton, List.not_mem_nil, or_false] at hch
    rcases hch with h1 | h1 | h1 | h1
    · exact Or.inr ⟨a / 4, by omega, h1⟩
    · exact Or.inr ⟨a % 4 * 16, by omega, h1⟩
    · exact Or.inl h1
    · exact Or.inl h1
  | [a, b], h, ch, hch => by
    have ha : a < 256 := h a (by simp)
    have hb : b < 256 := h b (by simp)
    rw [b64encodeChunks] at hch
    simp only [List.mem_cons, List.mem_singleton, List.not_mem_nil, or_false] at hch
    rcases hch with h1 | h1 | h1 | h1
    · exact Or.inr ⟨a / 4, by omega, h1⟩
    · exact Or.inr ⟨a % 4 * 16 + b / 16, by omega, h1⟩
    · exact Or.inr ⟨b % 16 * 4, by omega, h1⟩
    · exact Or.inl h1
  | a :: b :: c :: rest, h, ch, hch => by
    have ha : a < 256 := h a (by simp)
    have hb : b < 256 := h b (by simp)
    have hc : c < 256 := h c (by simp)
    rw [b64encodeChunks] at hch
    simp only [List.mem_cons] at hch
    rcases hch with h1 | h1 | h1 | h1 | h1
    · exact Or.inr ⟨a / 4, by omega, h1⟩
    · exact Or.inr ⟨a % 4 * 16 + b / 16, by omega, h1⟩
    · exact Or.inr ⟨b % 16 * 4 + c / 64, by omega, h1⟩
    · exact Or.inr ⟨c % 64, by omega, h1⟩
    · exact mem_b64encodeChunks rest (fun x hx => h x (by simp [hx])) ch h1

theorem filter_b64encodeChunks (l : List Nat) (h : ∀ x ∈ l, x < 256) :
    (b64encodeChunks l).filter (fun ch => ¬(ch = Char.ofNat 13 ∨ ch = Char.ofNat 10)) =
      b64encodeChunks l := by
  rw [List.filter_eq_self]
  intro ch hch
  rcases mem_b64encodeChunks l h ch hch with he | ⟨k, hk, he⟩
  · subst he; decide
  · subst he
    simpa using b64char_ne_crlf k hk

theorem b64decodeQuanta_encodeChunks : ∀ (l : List Nat), (∀ x ∈ l, x < 256) →
    b64decodeQuanta (b64encodeChunks l) = (l, none)
  | [], _ => rfl
  | [a], h => by
    have ha : a < 256 := h a (by simp)
    have h1 := b64val_b64char (a / 4) (by omega)
    have h2 := b64val_b64char (a % 4 * 16) (by omega)
    have hv : a / 4 * 4 + a % 4 * 16 / 16 = a := by omega
    rw [b64encodeChunks]
    simp [b64decodeQuanta, h1, h2, hv]
    omega
  | [a, b], h => by
    have ha : a < 256 := h a (by simp)
    have hb : b < 256 := h b (by simp)
    have h1 := b64val_b64char (a / 4) (by omega)
    have h2 := b64val_b64char (a % 4 * 16 + b / 16) (by omega)
    have h3 := b64val_b64char (b % 16 * 4) (by omega)
    have hp3 := b64char_ne_pad (b % 16 * 4) (by omega)
    have hv1 : a / 4 * 4 + (a % 4 * 16 + b / 16) / 16 = a := by omega
    have hv2 : (a % 4 * 16 + b / 16) % 16 * 16 + b % 16 * 4 / 4 = b := by omega
    rw [b64encodeChunks]
    simp [b64decodeQuanta, h1, h2, h3, hp3, hv1, hv2]
    omega
  | a :: b :: c :: rest, h => by
    have ha : a < 256 := h a (by simp)
    have hb : b < 256 := h b (by simp)
    have hc : c < 256 := h c (by simp)
    have h1 := b64val_b64char (a / 4) (by omega)
    have h2 := b64val_b64char (a % 4 * 16 + b / 16) (by omega)
    have h3 := b64val_b64char (b % 16 * 4 + c / 64) (by omega)
    have h4 := b64val_b64char (c % 64) (by omega)
    have hp3 := b64char_ne_pad (b % 16 * 4 + c / 64) (by omega)
    have hp4 := b64char_ne_pad (c % 64) (by omega)
    have hv1 : a / 4 * 4 + (a % 4 * 16 + b / 16) / 16 = a := by omega
    have hv2 : (a % 4 * 16 + b / 16) % 16 * 16 + (b % 16 * 4 + c / 64) / 4 = b := by omega
    have hv3 : (b % 16 * 4 + c / 64) % 4 * 64 + c % 64 = c := by omega
    have hrec := b64decodeQuanta_encodeChunks rest (fun x hx => h x (by simp [hx]))
    rw [b64encodeChunks]
    simp [b64decodeQuanta, h1, h2, h3, h4, hp3, hp4, hv1, hv2, hv3, hrec]

theorem b64decode_b64encode (bs : List Nat) (h : ∀ x ∈ bs, x < 256) :
    b64decode (b64encode bs) = (bs, none) := by
  rw [b64decode, b64encode]
  have hl : (String.mk (b64encodeChunks bs)).toList = b64encodeChunks bs := rfl
  rw [hl]
  rw [show (fun c => decide ¬(c = Char.ofNat 13 ∨ c = Char.ofNat 10)) =
    (fun ch => decide ¬(ch = Char.ofNat 13 ∨ ch = Char.ofNat 10)) from rfl]
  rw [filter_b64encodeChunks bs h]
  exact b64decodeQuanta_encodeChunks bs h

/-- C3 amended: for the boolean, integer, string and byte-blob kinds,
applying `Set` (the `parseFrom` of the typed-value contract) to the text
produced by `toText v` yields `v` back with no error (for a nil byte slice
the decode yields the equal-contents empty slice).  For the string-list kind
the round-trip fails — `Set` appends the whole serialized text as a single
element (see the counterexample); the float kind is outside the embedding. -/
theorem scalar_toText_parseFrom_roundtrip :
    (∀ prev b : Bool, OptValue.Set (.bool prev) ((OptValue.bool b).toText) = (.bool b, none)) ∧
    (∀ prev i : Int, minInt64 ≤ i → i ≤ maxInt64 →
      OptValue.Set (.int prev) ((OptValue.int i).toText) = (.int i, none)) ∧
    (∀ prev s : String, OptValue.Set (.str prev) ((OptValue.str s).toText) = (.str s, none)) ∧
    (∀ (prev : Option (List Nat)) (bs : List Nat), (∀ x ∈ bs, x < 256) →
      OptValue.Set (.bytes prev) ((OptValue.bytes (some bs)).toText) =
        (.bytes (some bs), none)) := by
  refine ⟨fun prev b => by cases b <;> rfl, fun prev i hl hr => ?_,
    fun prev s => rfl, fun prev bs h => ?_⟩
  · simp only [OptValue.Set, OptValue.toText, ParseInt_intToString i hl hr]
  · simp only [OptValue.Set, OptValue.toText, Option.getD_some,
      b64decode_b64encode bs h]

theorem scalar_toText_parseFrom_roundtrip_witness :
    OptValue.Set (.int 0) ((OptValue.int (-42)).toText) = (.int (-42), none) ∧
    OptValue.Set (.bytes none) ((OptValue.bytes (some [7, 255])).toText) =
      (.bytes (some [7, 255]), none) :=
  ⟨scalar_toText_parseFrom_roundtrip.2.1 0 (-42) (by decide) (by decide),
   scalar_toText_parseFrom_roundtrip.2.2.2 none [7, 255] (by decide)⟩

/-! ## Claim C5 -/

/-- Scalar test for decoded JSON values: booleans, numbers and strings reach
the default (`Set`-after-stringify) branch of `loadOptions`. -/
def Jval.isScalar : Jval → Bool
  | .bool _ => true
  | .num _ => true
  | .str _ => true
  | _ => false

theorem setElems_strs_acc (l : List String) :
    ∀ acc, setElems (l.map Jval.str) (.strList (some acc)) =
      (.strList (some (acc ++ l)), none) := by
  induction l with
  | nil => intro acc; simp [setElems]
  | cons x xs ih =>
    intro acc
    simp only [List.map_cons, setElems, OptValue.Set, Option.getD_some]
    simpa using ih (acc ++ [x])

/-- C5: per-key coercion of `loadOptions`.  A missing preferences file is not
an error; keys not matching a registered option name are ignored; for each
registered option whose name is a key: JSON null resets the value (no
on-change), a JSON object is silently skipped, a JSON array of strings resets
then appends each element with a single on-change event fired after the whole
array, and any scalar is stringified — with `fmt.Sprintf("%v", t)` of the
decoded value, so numbers of magnitude 10^6 and above render in e-notation —
then parsed with one on-change event on success; a failed parse stores the
parse result and aborts the load with the error. -/
theorem loadOptions_coercion
    (o : CmdOption) (rest : List CmdOption) (doc : JDoc) (tr : List Event) :
    (∀ (opts : List CmdOption) (tr0 : List Event),
      loadOptionsFile none opts tr0 = ⟨opts, tr0, none⟩) ∧
    (∀ (opts : List CmdOption) (tr0 : List Event) (doc1 doc2 : JDoc),
      (∀ p ∈ opts, lookupDoc doc1 p.Name = lookupDoc doc2 p.Name) →
      loadOptionsGo opts doc1 tr0 = loadOptionsGo opts doc2 tr0) ∧
    (lookupDoc doc o.Name = none →
      loadOptionsGo (o :: rest) doc tr =
        ⟨o :: (loadOptionsGo rest doc tr).opts, (loadOptionsGo rest doc tr).trace,
          (loadOptionsGo rest doc tr).err⟩) ∧
    (lookupDoc doc o.Name = some .null →
      loadOptionsGo (o :: rest) doc tr =
        ⟨{ o with Value := o.Value.Reset } :: (loadOptionsGo rest doc tr).opts,
          (loadOptionsGo rest doc tr).trace, (loadOptionsGo rest doc tr).err⟩) ∧
    (lookupDoc doc o.Name = some .obj →
      loadOptionsGo (o :: rest) doc tr =
        ⟨o :: (loadOptionsGo rest doc tr).opts, (loadOptionsGo rest doc tr).trace,
          (loadOptionsGo rest doc tr).err⟩) ∧
    (∀ elems v, lookupDoc doc o.Name = some (.arr elems) →
      setElems elems o.Value.Reset = (v, none) →
      loadOptionsGo (o :: rest) doc tr =
        ⟨{ o with Value := v } :: (loadOptionsGo rest doc (doChange o tr)).opts,
          (loadOptionsGo rest doc (doChange o tr)).trace,
          (loadOptionsGo rest doc (doChange o tr)).err⟩) ∧
    (∀ (l : List String) (cur : Option (List String)),
      setElems (l.map Jval.str) (OptValue.Reset (.strList cur)) =
        (.strList (if l = [] then none else some l), none)) ∧
    (∀ v : Jval, v.isScalar = true → lookupDoc doc o.Name = some v →
      (o.Value.Set (stringifyScalar v)).2 = none →
      loadOptionsGo (o :: rest) doc tr =
        ⟨{ o with Value := (o.Value.Set (stringifyScalar v)).1 } ::
            (loadOptionsGo rest doc (doChange o tr)).opts,
          (loadOptionsGo rest doc (doChange o tr)).trace,
          (loadOptionsGo rest doc (doChange o tr)).err⟩) ∧
    (∀ (v : Jval) (e : PErr), v.isScalar = true → lookupDoc doc o.Name = some v →
      (o.Value.Set (stringifyScalar v)).2 = some e →
      loadOptionsGo (o :: rest) doc tr =
        ⟨{ o with Value := (o.Value.Set (stringifyScalar v)).1 } :: rest, tr,
          some (perrMessage e)⟩) := by
  refine ⟨fun opts tr0 => rfl, ?_, fun h => by simp [loadOptionsGo, h],
    fun h => by simp [loadOptionsGo, h], fun h => by simp [loadOptionsGo, h],
    fun elems v h hs => by simp [loadOptionsGo, h, hs],
    fun l cur => ?_, fun v hscal h hs => ?_, fun v e hscal h hs => ?_⟩
  · intro opts tr0 doc1 doc2 hsame
    induction opts generalizing tr0 with
    | nil => rfl
    | cons p ps ih =>
      have hp := hsame p (List.mem_cons_self p ps)
      have hps : ∀ q ∈ ps, lookupDoc doc1 q.Name = lookupDoc doc2 q.Name :=
        fun q hq => hsame q (List.mem_cons_of_mem p hq)
      cases hv : lookupDoc doc2 p.Name with
      | none => rw [loadOptionsGo, loadOptionsGo, hp, hv, ih tr0 hps]
      | some v =>
        cases v with
        | null => rw [loadOptionsGo, loadOptionsGo, hp, hv, ih tr0 hps]
        | obj => rw [loadOptionsGo, loadOptionsGo, hp, hv, ih tr0 hps]
        | arr elems =>
          rw [loadOptionsGo, loadOptionsGo, hp, hv]
          cases hs : (setElems elems p.Value.Reset).2 with
          | none => simp only [hs, ih (doChange p tr0) hps]
          | some e => simp only [hs]
        | bool b =>
          rw [loadOptionsGo, loadOptionsGo, hp, hv]
          cases hs : (p.Value.Set (stringifyScalar (.bool b))).2 with
          | none => simp only [hs, ih (doChange p tr0) hps]
          | some e => simp only [hs]
        | num n =>
          rw [loadOptionsGo, loadOptionsGo, hp, hv]
          cases hs : (p.Value.Set (stringifyScalar (.num n))).2 with
          | none => simp only [hs, ih (doChange p tr0) hps]
          | some e => simp only [hs]
        | str x =>
          rw [loadOptionsGo, loadOptionsGo, hp, hv]
          cases hs : (p.Value.Set (stringifyScalar (.str x))).2 with
          | none => simp only [hs, ih (doChange p tr0) hps]
          | some e => simp only [hs]
  · cases l with
    | nil => simp [setElems, OptValue.Reset]
    | cons x xs =>
      simp only [OptValue.Reset, List.map_cons, setElems, OptValue.Set, Option.getD_none]
      simpa using setElems_strs_acc xs [x]
  · cases v with
    | bool b => simp [loadOptionsGo, h, hs]
    | num n => simp [loadOptionsGo, h, hs]
    | str x => simp [loadOptionsGo, h, hs]
    | null => simp [Jval.isScalar] at hscal
    | obj => simp [Jval.isScalar] at hscal
    | arr l => simp [Jval.isScalar] at hscal
  · cases v with
    | bool b => simp [loadOptionsGo, h, hs]
    | num n => simp [loadOptionsGo, h, hs]
    | str x => simp [loadOptionsGo, h, hs]
    | null => simp [Jval.isScalar] at hscal
    | obj => simp [Jval.isScalar] at hscal
    | arr l => simp [Jval.isScalar] at hscal

theorem loadOptions_coercion_witness :
    (loadOptionsGo [⟨"tag", "", "", "", .strList (some ["z"]), "", Standard, true, false⟩]
        [("zz", .bool true), ("tag", .arr [.str "p", .str "q"])] [] =
      ⟨[⟨"tag", "", "", "", .strList (some ["p", "q"]), "", Standard, true, false⟩],
        [Event.changed "tag"], none⟩) ∧
    (loadOptionsGo [⟨"n", "", "", "", .int 7, "0", Standard, true, false⟩]
        [("n", .num 1000000)] [] =
      ⟨[⟨"n", "", "", "", .int 0, "0", Standard, true, false⟩], [],
        some "invalid syntax"⟩) := by
  have h := (loadOptions_coercion
    ⟨"tag", "", "", "", .strList (some ["z"]), "", Standard, true, false⟩ []
    [("zz", .bool true), ("tag", .arr [.str "p", .str "q"])] []).2.2.2.2.2.1
    [.str "p", .str "q"] (.strList (some ["p", "q"])) rfl rfl
  have h2 := (loadOptions_coercion
    ⟨"n", "", "", "", .int 7, "0", Standard, true, false⟩ []
    [("n", .num 1000000)] []).2.2.2.2.2.2.2.2
    (.num 1000000) PErr.badInput rfl rfl rfl
  exact ⟨by simpa [loadOptionsGo, doChange] using h, h2⟩

/-! ## Claim C1 -/

/-- C1: the boolean lookahead heuristic.  For a bare `-name` token resolving
to a boolean option while literal mode is off: if the next token exists, does
not start with `-`, and parses as a boolean, it is consumed as the value and
the scan advances past it; if it does not parse as a boolean (or starts with
`-`, or no next token exists), the option is set to `"true"` and the next
token is not consumed — it remains in the stream for separate processing.
Either way the on-change hook fires for the option. -/
theorem bool_lookahead_heuristic
    (st : ScanSt) (o : CmdOption) (name tok next : String) (rest : List String) (b : Bool)
    (hstop : st.stop = false)
    (hpair : splitTokenPair tok = [name])
    (hdash : startsWithDash tok = true)
    (hne1 : tok ≠ "-?") (hne2 : tok ≠ "-h") (hne3 : tok ≠ "-H")
    (hne4 : tok ≠ "-version") (hne5 : tok ≠ "--")
    (hfind : findOption st.opts name = some o)
    (hkind : o.Value = .bool b) :
    (¬ startsWithDash next → (ParseBool next).2 = none →
      scanArgs "" (tok :: next :: rest) st =
        scanArgs "" rest
          { st with opts := updateOption st.opts o.Name (.bool (ParseBool next).1),
                    trace := doChange o st.trace }) ∧
    (startsWithDash next = true ∨ (ParseBool next).2 ≠ none →
      scanArgs "" (tok :: next :: rest) st =
        scanArgs "" (next :: rest)
          { st with opts := updateOption st.opts o.Name (.bool true),
                    trace := doChange o st.trace }) ∧
    (scanArgs "" [tok] st =
      .done { st with opts := updateOption st.opts o.Name (.bool true),
                      trace := doChange o st.trace }) := by
  have hcl : classifyTok "" st.stop tok = .option := by
    simp [classifyTok, hstop, hne1, hne2, hne3, hne4, hne5, hdash]
  have htrue : ParseBool "true" = (true, none) := rfl
  refine ⟨fun hnd hpb => ?_, fun hb => ?_, ?_⟩
  · have hnem : next ≠ "" := by
      intro he
      rw [he] at hpb
      simp [ParseBool] at hpb
    have hstep : optionStep tok (some next) st =
        .cont { st with opts := updateOption st.opts o.Name (.bool (ParseBool next).1),
                        trace := doChange o st.trace } true := by
      simp [optionStep, hpair, hfind, hkind, hnd, hpb, hnem, applyValue,
        OptValue.Set, stepOfApply]
    simp only [scanArgs, hcl, hstep]
    simp
  · have hstep : optionStep tok (some next) st =
        .cont { st with opts := updateOption st.opts o.Name (.bool true),
                        trace := doChange o st.trace } false := by
      rcases hb with hb | hb
      · simp [optionStep, hpair, hfind, hkind, hb, applyValue, OptValue.Set,
          htrue, stepOfApply]
      · have hpb : (ParseBool next).2.isSome = true := by
          cases hx : (ParseBool next).2 with
          | none => exact absurd hx hb
          | some e => rfl
        by_cases hD : startsWithDash next
        · simp [optionStep, hpair, hfind, hkind, hD, applyValue, OptValue.Set,
            htrue, stepOfApply]
        · simp [optionStep, hpair, hfind, hkind, hD, hpb, applyValue, OptValue.Set,
            htrue, stepOfApply]
    simp only [scanArgs, hcl, hstep]
    simp
  · have hstep : optionStep tok none st =
        .cont { st with opts := updateOption st.opts o.Name (.bool true),
                        trace := doChange o st.trace } false := by
      simp [optionStep, hpair, hfind, hkind, applyValue, OptValue.Set,
        htrue, stepOfApply]
    simp only [scanArgs, hcl, hstep]

theorem bool_lookahead_heuristic_witness :
    (scanArgs "" ["-verbose", "false", "copy"]
        ⟨addOption "verbose" "" "" "" (.bool false) Standard [], ["prog"], [], false, false, false⟩ =
      scanArgs "" ["copy"]
        ⟨updateOption (addOption "verbose" "" "" "" (.bool false) Standard [])
          "verbose" (.bool false), ["prog"], [], false, false, false⟩) ∧
    (scanArgs "" ["-verbose", "copy"]
        ⟨addOption "verbose" "" "" "" (.bool false) Standard [], ["prog"], [], false, false, false⟩ =
      scanArgs "" ["copy"]
        ⟨updateOption (addOption "verbose" "" "" "" (.bool false) Standard [])
          "verbose" (.bool true), ["prog"], [], false, false, false⟩) := by
  constructor
  · have h := (bool_lookahead_heuristic
      ⟨addOption "verbose" "" "" "" (.bool false) Standard [], ["prog"], [], false, false, false⟩
      ⟨"verbose", "", "", "", .bool false, "false", Standard, false, false⟩
      "verbose" "-verbose" "false" ["copy"] false rfl (by decide) (by decide)
      (by decide) (by decide) (by decide) (by decide) (by decide) (by decide) rfl).1
      (by decide) (by decide)
    simpa [doChange] using h
  · have h := (bool_lookahead_heuristic
      ⟨addOption "verbose" "" "" "" (.bool false) Standard [], ["prog"], [], false, false, false⟩
      ⟨"verbose", "", "", "", .bool false, "false", Standard, false, false⟩
      "verbose" "-verbose" "copy" [] false rfl (by decide) (by decide)
      (by decide) (by decide) (by decide) (by decide) (by decide) (by decide) rfl).2.1
      (Or.inr (by decide))
    simpa [doChange] using h

/-! ## Claim C2, amended part -/

/-- C2 amended: for a bare `-name` string-list option token with no following
non-dash token, `Parse` calls `FromString(Default)` — `json.Unmarshal` of the
captured default text into the list — and discards its error: when the
default text parses as a JSON array the list is replaced by the decoded
contents (restoring the registered default), but when it does not parse
(e.g. the empty text captured for a nil registered list) the list is left
unchanged; no on-change callback fires on this path.  A following non-dash
token is instead consumed and appended, and then the on-change callback
(if attached) does fire. -/
theorem bare_stringList_semantics
    (st : ScanSt) (o : CmdOption) (name tok : String) (cur : Option (List String))
    (hstop : st.stop = false)
    (hpair : splitTokenPair tok = [name])
    (hdash : startsWithDash tok = true)
    (hne1 : tok ≠ "-?") (hne2 : tok ≠ "-h") (hne3 : tok ≠ "-H")
    (hne4 : tok ≠ "-version") (hne5 : tok ≠ "--")
    (hfind : findOption st.opts name = some o)
    (hkind : o.Value = .strList cur) :
    (∀ next rest, startsWithDash next = true →
      scanArgs "" (tok :: next :: rest) st =
        scanArgs "" (next :: rest)
          { st with opts := updateOption st.opts o.Name (OptValue.strList (stringListFromString cur o.Default)) }) ∧
    (scanArgs "" [tok] st =
      .done { st with opts := updateOption st.opts o.Name (OptValue.strList (stringListFromString cur o.Default)) }) ∧
    (∀ r, jsonUnmarshalStringList o.Default = some r →
      stringListFromString cur o.Default = r) ∧
    (jsonUnmarshalStringList o.Default = none →
      stringListFromString cur o.Default = cur) ∧
    (∀ next rest, startsWithDash next = false → next ≠ "" →
      scanArgs "" (tok :: next :: rest) st =
        scanArgs "" rest
          { st with opts := updateOption st.opts o.Name (OptValue.strList (some (cur.getD [] ++ [next]))),
                    trace := doChange o st.trace }) := by
  have hcl : classifyTok "" st.stop tok = .option := by
    simp [classifyTok, hstop, hne1, hne2, hne3, hne4, hne5, hdash]
  refine ⟨fun next rest hD => ?_, ?_, fun r hr => ?_, fun hr => ?_, fun next rest hD hnem => ?_⟩
  · have hstep : optionStep tok (some next) st =
        .cont { st with opts := updateOption st.opts o.Name (OptValue.strList (stringListFromString cur o.Default)) } false := by
      simp [optionStep, hpair, hfind, hkind, hD]
    simp only [scanArgs, hcl, hstep]
    simp
  · have hstep : optionStep tok none st =
        .cont { st with opts := updateOption st.opts o.Name (OptValue.strList (stringListFromString cur o.Default)) } false := by
      simp [optionStep, hpair, hfind, hkind]
    simp only [scanArgs, hcl, hstep]
  · simp [stringListFromString, hr]
  · simp [stringListFromString, hr]
  · have hstep : optionStep tok (some next) st =
        .cont { st with opts := updateOption st.opts o.Name (OptValue.strList (some (cur.getD [] ++ [next]))),
                        trace := doChange o st.trace } true := by
      simp [optionStep, hpair, hfind, hkind, hD, hnem, applyValue,
        OptValue.Set, stepOfApply]
    simp only [scanArgs, hcl, hstep]
    simp

theorem bare_stringList_semantics_witness :
    scanArgs "" ["-tag"]
        ⟨[⟨"tag", "", "", "", .strList (some ["a", "b"]), "[\x22x\x22]",
            Standard, false, false⟩], ["prog"], [], false, false, false⟩ =
      .done ⟨[⟨"tag", "", "", "", .strList (some ["x"]), "[\x22x\x22]",
          Standard, false, false⟩], ["prog"], [], false, false, false⟩ := by
  have h := bare_stringList_semantics
    ⟨[⟨"tag", "", "", "", .strList (some ["a", "b"]), "[\x22x\x22]",
        Standard, false, false⟩], ["prog"], [], false, false, false⟩
    ⟨"tag", "", "", "", .strList (some ["a", "b"]), "[\x22x\x22]",
        Standard, false, false⟩
    "tag" "-tag" (some ["a", "b"]) rfl (by decide) (by decide)
    (by decide) (by decide) (by decide) (by decide) (by decide) (by decide) rfl
  have h2 := h.2.1
  have h3 := h.2.2.1 (some ["x"]) (by decide)
  rw [h3] at h2
  simpa [updateOption] using h2

/-! ## Claim C2, counterexample part -/

/-- Counterexample to C2: a bare `-tag` (string-list option, no following
non-dash token) does not reset-and-reload the list when the captured default
text is `""` (the text captured for a nil registered list): the
`FromString(Default)` call fails to unmarshal `""`, its error is discarded,
and the list keeps its current contents `["a"]` instead of being restored to
the registered (empty) default. -/
theorem bare_stringList_default_restore_fails :
    (Parse ⟨"", "", [⟨"", "", true⟩]⟩ none ["prog", "-tag", "a", "-tag"]
        (addOption "tag" "" "" "" (.strList none) Standard [])).opts.map
        (fun o => o.Value) = [.strList (some ["a"])] ∧
    OptValue.strList (some ["a"]) ≠ OptValue.strList none ∧
    ["a"] ≠ ([] : List String) := by
  exact ⟨by decide, by decide, by decide⟩

/-! ## Claim C3, counterexample part -/

/-- Counterexample to C3 at the string-list kind: `Set` (the `parseFrom` of
the text contract) appends the whole serialized text as a single element, so
`parseFrom (toText v)` does not round-trip to `v`. -/
theorem stringList_roundtrip_fails :
    OptValue.Set (.strList (some ["a"])) ((OptValue.strList (some ["a"])).toText) =
      (.strList (some ["a", "[\x22a\x22]"]), none) ∧
    OptValue.strList (some ["a", "[\x22a\x22]"]) ≠ OptValue.strList (some ["a"]) ∧
    (OptValue.Set (.strList none) ((OptValue.strList (some ["a"])).toText)).1 ≠
      OptValue.strList (some ["a"]) := by
  refine ⟨by decide, by decide, by decide⟩

/-! ## Claim C4 -/


/-- Inclusion condition of `jsonOptions` (line 257): Preference flag set and
current text different from the captured default. -/
def includedOpt (o : CmdOption) : Prop :=
  0 < Nat.land o.Flags Preference ∧ o.Value.toText ≠ o.Default

instance (o : CmdOption) : Decidable (includedOpt o) := by
  unfold includedOpt; infer_instance

/-- Kind tag of a typed value (the Go dynamic type of the `optionValue`). -/
def OptValue.kind : OptValue → Nat
  | .bool _ => 0
  | .int _ => 1
  | .str _ => 2
  | .strList _ => 3
  | .bytes _ => 4

/-- `o0` is the same option definition as `o` in a fresh registry: same name,
same captured default, same value kind, and a current value still at the
default text. -/
def freshOf (o o0 : CmdOption) : Prop :=
  o0.Name = o.Name ∧ o0.Default = o.Default ∧ o0.Value.kind = o.Value.kind ∧
    o0.Value.toText = o0.Default

/-- Well-formedness of a stored value, invariant for every registry reachable
through the package API: integers fit in int64, bytes are byte-valued, and a
non-nil empty list can only be the registered default itself (`Set` appends,
`Reset` nils, array loading of an empty array nils). -/
def WFOpt (o : CmdOption) : Prop :=
  match o.Value with
  | .int i => minInt64 ≤ i ∧ i ≤ maxInt64
  | .bytes (some bs) => ∀ x ∈ bs, x < 256
  | .strList (some l) => l = [] → o.Default = "[]"
  | _ => True

/-- The stored value survives the decode-through-float64 stringification of
`loadOptions`: an integer keeps magnitude below 10^6 (from there Go's `%v`
prints e-notation, which `strconv.ParseInt` rejects); every other kind is
unaffected.  Round-trip statements carry this bound. -/
def numFmtSafe (o : CmdOption) : Prop :=
  match o.Value with
  | .int i => i.natAbs < 1000000
  | _ => True

theorem jsonNumToString_small (i : Int) (h : i.natAbs < 1000000) :
    jsonNumToString i = intToString i := by
  rw [jsonNumToString, if_pos h]

theorem jsonOptions_doc (opts : List CmdOption) : ∀ tr : List Event,
    (jsonOptions opts tr).1 = opts.filterMap
      (fun o => if includedOpt o then some (o.Name, o.Value.Get) else none) ∧
    (jsonOptions opts tr).2 = tr ++ opts.filterMap
      (fun o => if includedOpt o ∧ o.onSave = true then some (Event.saved o.Name) else none) := by
  induction opts with
  | nil => intro tr; simp [jsonOptions]
  | cons v rest ih =>
    intro tr
    by_cases hv : includedOpt v
    · by_cases hs : v.onSave
      · rw [jsonOptions,
          if_pos (show 0 < Nat.land v.Flags Preference ∧ v.Value.toText ≠ v.Default from hv),
          if_pos hs]
        refine ⟨?_, ?_⟩
        · simp only [(ih (tr ++ [Event.saved v.Name])).1]
          simp [List.filterMap_cons, hv]
        · simp only [(ih (tr ++ [Event.saved v.Name])).2]
          simp [List.filterMap_cons, hv, hs]
      · rw [jsonOptions,
          if_pos (show 0 < Nat.land v.Flags Preference ∧ v.Value.toText ≠ v.Default from hv),
          if_neg hs]
        refine ⟨?_, ?_⟩
        · simp only [(ih tr).1]
          simp [List.filterMap_cons, hv]
        · simp only [(ih tr).2]
          simp [List.filterMap_cons, hv, hs]
    · rw [jsonOptions,
        if_neg (show ¬(0 < Nat.land v.Flags Preference ∧ v.Value.toText ≠ v.Default) from hv)]
      refine ⟨?_, ?_⟩
      · simp only [(ih tr).1]
        simp [List.filterMap_cons, hv]
      · simp only [(ih tr).2]
        simp [List.filterMap_cons, hv]

theorem lookupDoc_cons_ne (q : String × Jval) (doc : JDoc) (name : String)
    (h : q.1 ≠ name) : lookupDoc (q :: doc) name = lookupDoc doc name := by
  have hb : ¬((fun x : String × Jval => x.1 == name) q) = true := by simpa using h
  rw [lookupDoc, List.find?_cons_of_neg doc hb, ← lookupDoc]

theorem lookupDoc_cons_eq (q : String × Jval) (doc : JDoc) (name : String)
    (h : q.1 = name) : lookupDoc (q :: doc) name = some q.2 := by
  have hb : ((fun x : String × Jval => x.1 == name) q) = true := by simpa using h
  rw [lookupDoc, List.find?_cons_of_pos doc hb]
  rfl

theorem lookupDoc_filterMap_not_mem (opts : List CmdOption) (name : String)
    (hnot : name ∉ opts.map (fun o => o.Name)) :
    lookupDoc (opts.filterMap
      (fun o => if includedOpt o then some (o.Name, o.Value.Get) else none)) name = none := by
  induction opts with
  | nil => rfl
  | cons p rest ih =>
    simp only [List.map_cons, List.mem_cons, not_or] at hnot
    by_cases hp : includedOpt p
    · simp only [List.filterMap_cons, if_pos hp]
      rw [lookupDoc_cons_ne _ _ _ (fun hc => hnot.1 hc.symm)]
      exact ih hnot.2
    · simp only [List.filterMap_cons, if_neg hp]
      exact ih hnot.2

theorem lookupDoc_filterMap_mem (opts : List CmdOption) (o : CmdOption)
    (hmem : o ∈ opts) (hnd : (opts.map (fun o => o.Name)).Nodup) :
    lookupDoc (opts.filterMap
      (fun o => if includedOpt o then some (o.Name, o.Value.Get) else none)) o.Name =
      if includedOpt o then some o.Value.Get else none := by
  induction opts with
  | nil => cases hmem
  | cons p rest ih =>
    simp only [List.map_cons, List.nodup_cons] at hnd
    rcases List.mem_cons.mp hmem with heq | htl
    · subst heq
      by_cases hp : includedOpt o
      · simp only [List.filterMap_cons, if_pos hp]
        rw [lookupDoc_cons_eq _ _ _ rfl]
      · simp only [List.filterMap_cons, if_neg hp, if_neg hp]
        exact lookupDoc_filterMap_not_mem rest o.Name hnd.1
    · have hne : p.Name ≠ o.Name := by
        intro hc
        exact hnd.1 (hc ▸ List.mem_map_of_mem (fun o => o.Name) htl)
      by_cases hp : includedOpt p
      · simp only [List.filterMap_cons, if_pos hp]
        rw [lookupDoc_cons_ne _ _ _ hne]
        exact ih htl hnd.2
      · simp only [List.filterMap_cons, if_neg hp]
        exact ih htl hnd.2

theorem setElems_strs (l : List String) :
    setElems (l.map Jval.str) (.strList none) =
      (.strList (if l = [] then none else some l), none) := by
  cases l with
  | nil => simp [setElems]
  | cons x xs =>
    simp only [List.map_cons, setElems, OptValue.Set, Option.getD_none]
    simpa using setElems_strs_acc xs [x]

theorem kind_eq_bool {v : OptValue} (h : v.kind = 0) : ∃ b, v = .bool b := by
  cases v with
  | bool b => exact ⟨b, rfl⟩
  | _ => simp [OptValue.kind] at h

theorem kind_eq_int {v : OptValue} (h : v.kind = 1) : ∃ i, v = .int i := by
  cases v with
  | int i => exact ⟨i, rfl⟩
  | _ => simp [OptValue.kind] at h

theorem kind_eq_str {v : OptValue} (h : v.kind = 2) : ∃ s, v = .str s := by
  cases v with
  | str s => exact ⟨s, rfl⟩
  | _ => simp [OptValue.kind] at h

theorem kind_eq_strList {v : OptValue} (h : v.kind = 3) : ∃ l, v = .strList l := by
  cases v with
  | strList l => exact ⟨l, rfl⟩
  | _ => simp [OptValue.kind] at h

theorem kind_eq_bytes {v : OptValue} (h : v.kind = 4) : ∃ b, v = .bytes b := by
  cases v with
  | bytes b => exact ⟨b, rfl⟩
  | _ => simp [OptValue.kind] at h

theorem loadGo_none_step (o0 : CmdOption) (rest0 : List CmdOption) (doc : JDoc)
    (tr : List Event) (hlk : lookupDoc doc o0.Name = none) :
    loadOptionsGo (o0 :: rest0) doc tr =
      ⟨o0 :: (loadOptionsGo rest0 doc tr).opts, (loadOptionsGo rest0 doc tr).trace,
        (loadOptionsGo rest0 doc tr).err⟩ := by
  simp [loadOptionsGo, hlk]

theorem loadGo_null_step (o0 : CmdOption) (rest0 : List CmdOption) (doc : JDoc)
    (tr : List Event) (hlk : lookupDoc doc o0.Name = some .null) :
    loadOptionsGo (o0 :: rest0) doc tr =
      ⟨{ o0 with Value := o0.Value.Reset } :: (loadOptionsGo rest0 doc tr).opts,
        (loadOptionsGo rest0 doc tr).trace, (loadOptionsGo rest0 doc tr).err⟩ := by
  simp [loadOptionsGo, hlk]

theorem loadGo_arr_step (o0 : CmdOption) (rest0 : List CmdOption) (doc : JDoc)
    (tr : List Event) (elems : List Jval) (nv : OptValue)
    (hlk : lookupDoc doc o0.Name = some (.arr elems))
    (hset : setElems elems o0.Value.Reset = (nv, none)) :
    loadOptionsGo (o0 :: rest0) doc tr =
      ⟨{ o0 with Value := nv } :: (loadOptionsGo rest0 doc (doChange o0 tr)).opts,
        (loadOptionsGo rest0 doc (doChange o0 tr)).trace,
        (loadOptionsGo rest0 doc (doChange o0 tr)).err⟩ := by
  simp [loadOptionsGo, hlk, hset]

theorem loadGo_scalar_step (o0 : CmdOption) (rest0 : List CmdOption) (doc : JDoc)
    (tr : List Event) (v : Jval) (nv : OptValue) (hscal : v.isScalar = true)
    (hlk : lookupDoc doc o0.Name = some v)
    (hset : o0.Value.Set (stringifyScalar v) = (nv, none)) :
    loadOptionsGo (o0 :: rest0) doc tr =
      ⟨{ o0 with Value := nv } :: (loadOptionsGo rest0 doc (doChange o0 tr)).opts,
        (loadOptionsGo rest0 doc (doChange o0 tr)).trace,
        (loadOptionsGo rest0 doc (doChange o0 tr)).err⟩ := by
  cases v with
  | bool b => simp [loadOptionsGo, hlk, hset]
  | num n => simp [loadOptionsGo, hlk, hset]
  | str s => simp [loadOptionsGo, hlk, hset]
  | null => simp [Jval.isScalar] at hscal
  | obj => simp [Jval.isScalar] at hscal
  | arr l => simp [Jval.isScalar] at hscal

theorem load_roundtrip_aux (doc : JDoc) :
    ∀ (opts opts0 : List CmdOption), List.Forall₂ freshOf opts opts0 →
      ∀ tr : List Event,
      (∀ o ∈ opts, WFOpt o) →
      (∀ o ∈ opts, numFmtSafe o) →
      (∀ o ∈ opts, lookupDoc doc o.Name = if includedOpt o then some o.Value.Get else none) →
      (loadOptionsGo opts0 doc tr).opts =
        List.zipWith (fun o o0 => if includedOpt o then { o0 with Value := o.Value } else o0)
          opts opts0 ∧
      (loadOptionsGo opts0 doc tr).err = none := by
  intro opts opts0 hf
  induction hf with
  | nil => intro tr _ _ _; exact ⟨rfl, rfl⟩
  | @cons o o0 rest rest0 hfo hrest ih =>
    intro tr hwf hnum hlk
    obtain ⟨hname, hdflt, hk, ht⟩ := hfo
    have hlko := hlk o (List.mem_cons_self _ _)
    have hwo : WFOpt o := hwf o (List.mem_cons_self _ _)
    have ihtr := fun tr2 => ih tr2 (fun x hx => hwf x (List.mem_cons_of_mem _ hx))
      (fun x hx => hnum x (List.mem_cons_of_mem _ hx))
      (fun x hx => hlk x (List.mem_cons_of_mem _ hx))
    by_cases hincl : includedOpt o
    · rw [if_pos hincl] at hlko
      have hlko0 : lookupDoc doc o0.Name = some o.Value.Get := by rw [hname]; exact hlko
      cases hov : o.Value with
      | bool b =>
        rw [hov] at hk
        obtain ⟨b0, hb0⟩ := kind_eq_bool hk
        have hlk' : lookupDoc doc o0.Name = some (Jval.bool b) := by
          rw [hlko0, hov]; rfl
        have hset : o0.Value.Set (stringifyScalar (Jval.bool b)) = (.bool b, none) := by
          rw [hb0]; cases b <;> rfl
        rw [loadGo_scalar_step o0 rest0 doc tr (Jval.bool b) (.bool b) rfl hlk' hset]
        refine ⟨?_, (ihtr (doChange o0 tr)).2⟩
        rw [List.zipWith_cons_cons, if_pos hincl, hov, (ihtr (doChange o0 tr)).1]
      | int i =>
        rw [hov] at hk
        obtain ⟨i0, hi0⟩ := kind_eq_int hk
        rw [WFOpt, hov] at hwo
        have hno := hnum o (List.mem_cons_self _ _)
        rw [numFmtSafe, hov] at hno
        have hlk' : lookupDoc doc o0.Name = some (Jval.num i) := by
          rw [hlko0, hov]; rfl
        have hset : o0.Value.Set (stringifyScalar (Jval.num i)) = (.int i, none) := by
          rw [hi0]
          simp only [stringifyScalar, jsonNumToString_small i hno, OptValue.Set,
            ParseInt_intToString i hwo.1 hwo.2]
        rw [loadGo_scalar_step o0 rest0 doc tr (Jval.num i) (.int i) rfl hlk' hset]
        refine ⟨?_, (ihtr (doChange o0 tr)).2⟩
        rw [List.zipWith_cons_cons, if_pos hincl, hov, (ihtr (doChange o0 tr)).1]
      | str s =>
        rw [hov] at hk
        obtain ⟨s0, hs0⟩ := kind_eq_str hk
        have hlk' : lookupDoc doc o0.Name = some (Jval.str s) := by
          rw [hlko0, hov]; rfl
        have hset : o0.Value.Set (stringifyScalar (Jval.str s)) = (.str s, none) := by
          rw [hs0]; rfl
        rw [loadGo_scalar_step o0 rest0 doc tr (Jval.str s) (.str s) rfl hlk' hset]
        refine ⟨?_, (ihtr (doChange o0 tr)).2⟩
        rw [List.zipWith_cons_cons, if_pos hincl, hov, (ihtr (doChange o0 tr)).1]
      | strList l =>
        rw [hov] at hk
        obtain ⟨l0, hl0⟩ := kind_eq_strList hk
        cases l with
        | none =>
          have hlk' : lookupDoc doc o0.Name = some Jval.null := by
            rw [hlko0, hov]; rfl
          rw [loadGo_null_step o0 rest0 doc tr hlk']
          refine ⟨?_, (ihtr tr).2⟩
          rw [List.zipWith_cons_cons, if_pos hincl, hov, (ihtr tr).1, hl0]
          rfl
        | some xs =>
          have hxs : xs ≠ [] := by
            intro hc
            rw [WFOpt, hov] at hwo
            have hdef : o.Default = "[]" := hwo hc
            have htx : o.Value.toText = "[]" := by rw [hov, hc]; rfl
            exact hincl.2 (htx.trans hdef.symm)
          have hlk' : lookupDoc doc o0.Name = some (Jval.arr (xs.map Jval.str)) := by
            rw [hlko0, hov]; rfl
          have hset : setElems (xs.map Jval.str) o0.Value.Reset =
              (.strList (some xs), none) := by
            rw [hl0]
            show setElems (xs.map Jval.str) (.strList none) = _
            rw [setElems_strs, if_neg hxs]
          rw [loadGo_arr_step o0 rest0 doc tr (xs.map Jval.str) (.strList (some xs)) hlk' hset]
          refine ⟨?_, (ihtr (doChange o0 tr)).2⟩
          rw [List.zipWith_cons_cons, if_pos hincl, hov, (ihtr (doChange o0 tr)).1]
      | bytes b =>
        rw [hov] at hk
        obtain ⟨c0, hc0⟩ := kind_eq_bytes hk
        cases b with
        | none =>
          have hlk' : lookupDoc doc o0.Name = some Jval.null := by
            rw [hlko0, hov]; rfl
          rw [loadGo_null_step o0 rest0 doc tr hlk']
          refine ⟨?_, (ihtr tr).2⟩
          rw [List.zipWith_cons_cons, if_pos hincl, hov, (ihtr tr).1, hc0]
          rfl
        | some bs =>
          rw [WFOpt, hov] at hwo
          have hlk' : lookupDoc doc o0.Name = some (Jval.str (b64encode bs)) := by
            rw [hlko0, hov]; rfl
          have hset : o0.Value.Set (stringifyScalar (Jval.str (b64encode bs))) =
              (.bytes (some bs), none) := by
            rw [hc0]
            simp only [stringifyScalar, OptValue.Set, b64decode_b64encode bs hwo]
          rw [loadGo_scalar_step o0 rest0 doc tr (Jval.str (b64encode bs))
            (.bytes (some bs)) rfl hlk' hset]
          refine ⟨?_, (ihtr (doChange o0 tr)).2⟩
          rw [List.zipWith_cons_cons, if_pos hincl, hov, (ihtr (doChange o0 tr)).1]
    · rw [if_neg hincl] at hlko
      have hlk' : lookupDoc doc o0.Name = none := by rw [hname]; exact hlko
      rw [loadGo_none_step o0 rest0 doc tr hlk']
      refine ⟨?_, (ihtr tr).2⟩
      rw [List.zipWith_cons_cons, if_neg hincl, (ihtr tr).1]

/-- C4 (amended): `jsonOptions` (the serializer) includes an option in the
produced document iff it carries the Preference flag and its current text
differs from its captured default; the on-before-save hook of each included
option fires during serialization (in document order, before later
inclusions); and deserializing the produced document into a fresh registry
with identical definitions succeeds and reproduces exactly the included
options' values, leaving every omitted option at its registered default —
provided every stored integer keeps magnitude below 10^6.  From 10^6 the
decode-through-float64 stringification prints e-notation, the integer
re-parse fails and the load aborts instead of reproducing the value (see
the counterexample). -/
theorem serialize_membership_and_roundtrip
    (opts opts0 : List CmdOption) (tr tr0 : List Event)
    (hnd : (opts.map (fun o => o.Name)).Nodup)
    (hwf : ∀ o ∈ opts, WFOpt o)
    (hnum : ∀ o ∈ opts, numFmtSafe o)
    (hfresh : List.Forall₂ freshOf opts opts0) :
    (∀ name, name ∈ (jsonOptions opts tr).1.map Prod.fst ↔
      ∃ o ∈ opts, o.Name = name ∧ includedOpt o) ∧
    ((jsonOptions opts tr).2 = tr ++ opts.filterMap
      (fun o => if includedOpt o ∧ o.onSave = true then some (Event.saved o.Name) else none)) ∧
    ((loadOptionsGo opts0 (jsonOptions opts tr).1 tr0).opts =
      List.zipWith (fun o o0 => if includedOpt o then { o0 with Value := o.Value } else o0)
        opts opts0) ∧
    ((loadOptionsGo opts0 (jsonOptions opts tr).1 tr0).err = none) := by
  have hdoc := jsonOptions_doc opts tr
  have hlkAll : ∀ o ∈ opts, lookupDoc (jsonOptions opts tr).1 o.Name =
      if includedOpt o then some o.Value.Get else none := by
    intro o ho
    rw [hdoc.1]
    exact lookupDoc_filterMap_mem opts o ho hnd
  have haux := load_roundtrip_aux (jsonOptions opts tr).1 opts opts0 hfresh tr0 hwf hnum hlkAll
  refine ⟨?_, hdoc.2, haux.1, haux.2⟩
  intro name
  rw [hdoc.1]
  constructor
  · intro hmm
    simp only [List.mem_map, List.mem_filterMap] at hmm
    rcases hmm with ⟨⟨nm, jv⟩, ⟨o, ho, hif⟩, hfst⟩
    by_cases hio : includedOpt o
    · rw [if_pos hio] at hif
      cases hif
      exact ⟨o, ho, hfst, hio⟩
    · rw [if_neg hio] at hif
      cases hif
  · rintro ⟨o, ho, hn, hio⟩
    simp only [List.mem_map, List.mem_filterMap]
    exact ⟨(o.Name, o.Value.Get), ⟨o, ho, by rw [if_pos hio]⟩, hn⟩

theorem serialize_membership_and_roundtrip_witness :
    ("s" ∈ (jsonOptions
        [⟨"s", "", "", "", .str "hi", "", Preference, false, true⟩,
         ⟨"n", "", "", "", .int 42, "42", Preference, false, false⟩] []).1.map Prod.fst ↔
      ∃ o ∈ [⟨"s", "", "", "", .str "hi", "", Preference, false, true⟩,
         ⟨"n", "", "", "", OptValue.int 42, "42", Preference, false, false⟩],
        o.Name = "s" ∧ includedOpt o) ∧
    ((loadOptionsGo
        [⟨"s", "", "", "", .str "", "", Preference, false, true⟩,
         ⟨"n", "", "", "", .int 42, "42", Preference, false, false⟩]
        (jsonOptions
          [⟨"s", "", "", "", .str "hi", "", Preference, false, true⟩,
           ⟨"n", "", "", "", .int 42, "42", Preference, false, false⟩] []).1 []).opts =
      [⟨"s", "", "", "", .str "hi", "", Preference, false, true⟩,
       ⟨"n", "", "", "", .int 42, "42", Preference, false, false⟩]) := by
  have h := serialize_membership_and_roundtrip
    [⟨"s", "", "", "", .str "hi", "", Preference, false, true⟩,
     ⟨"n", "", "", "", .int 42, "42", Preference, false, false⟩]
    [⟨"s", "", "", "", .str "", "", Preference, false, true⟩,
     ⟨"n", "", "", "", .int 42, "42", Preference, false, false⟩] [] []
    (by decide)
    (by
      intro o ho
      rcases List.mem_cons.mp ho with h1 | h1
      · subst h1; trivial
      · rcases List.mem_cons.mp h1 with h2 | h2
        · subst h2
          exact ⟨by decide, by decide⟩
        · cases h2)
    (by
      intro o ho
      rcases List.mem_cons.mp ho with h1 | h1
      · subst h1; trivial
      · rcases List.mem_cons.mp h1 with h2 | h2
        · subst h2
          exact (by decide : (42 : Int).natAbs < 1000000)
        · cases h2)
    (List.Forall₂.cons ⟨rfl, rfl, rfl, rfl⟩
      (List.Forall₂.cons ⟨rfl, rfl, rfl, rfl⟩ List.Forall₂.nil))
  refine ⟨h.1 "s", ?_⟩
  rw [h.2.2.1]
  rfl

/-- C4, counterexample to the unrestricted round-trip: a Preference integer
option holding 1000000 is included by the serializer, but the decoded
float64 stringifies as `"1e+06"` (`%v` uses `%g`), the integer re-parse
fails, and loading into an identically-defined fresh registry aborts with
`invalid syntax`, leaving the fresh value at 0 instead of reproducing
1000000. -/
theorem serialize_roundtrip_large_int_not_reproduced :
    (jsonOptions [⟨"n", "", "", "", .int 1000000, "0", Preference, false, false⟩] []).1 =
      [("n", Jval.num 1000000)] ∧
    stringifyScalar (Jval.num 1000000) = "1e+06" ∧
    loadOptionsGo [⟨"n", "", "", "", .int 0, "0", Preference, false, false⟩]
        (jsonOptions [⟨"n", "", "", "", .int 1000000, "0", Preference, false, false⟩] []).1
        [] =
      ⟨[⟨"n", "", "", "", .int 0, "0", Preference, false, false⟩], [], some "invalid syntax"⟩ := by
  exact ⟨rfl, rfl, rfl⟩

end Cmdparser
